import Mathlib

/-!
Verification of the bigbrain Quine–McCluskey boolean-function minimizer
(src/src/table.rs) against its natural-language specification.

The embedding translates the Rust source:
* `Output` is the three-valued output/coordinate type.
* `Implicant` carries a value vector (`values`, a list of `Output` of length
  `N`) and the set of table indices it was derived from (`constituents`,
  a `Finset ℕ` mirroring Rust's `HashSet<usize>`).  Rust's `Eq`/`Hash` for
  `Implicant` compare `values` only; the embedding models that in the
  deduplicating insertion (`insertDedup`).
* `Table N` is the truth table: `2 ^ N` outputs (Rust `[Output; 1 << N]`,
  the length invariant carried as the field `hlen`).
* `Table.prime_implicants` is the fixed-point merge loop, translated
  imperatively: `innerPass`/`outerPass` are the two `for` loops over index
  pairs with the `merged` flag array, and `primeLoop` the outer `loop`.
  The Rust loop terminates because each merge adds one `DontCare`; the
  embedding makes that a fuel argument (`N + 2` suffices, proved below)
  and returns `Option`, `none` standing for non-termination (never hit).
* `cover` in the source builds a 0/1 integer program and hands it to the
  external coin_cbc solver.  The solver is not part of this repository, so
  `cover` is modelled from the spec (see its doc comment); everything
  around it (`minimize`'s formulation of the universe, the coverage sets,
  and the extraction of the selected implicants) follows the source.
* `Table.is_minterm` indexes the output array; Rust's bounds-checked
  indexing panics for an out-of-range index, modelled as `none`.
-/

namespace Bigbrain

/-- `Output` from table.rs: one of forced-0, forced-1, don't-care. -/
inductive Output where
  | Zero
  | One
  | DontCare
deriving DecidableEq

/-- `Implicant` from table.rs: the value vector (Rust `[Output; N]`, here a
list whose length is `N` for every implicant the program builds) and the
constituent set (Rust `HashSet<usize>`). -/
structure Implicant where
  values : List Output
  constituents : Finset Nat
deriving DecidableEq

instance : Inhabited Implicant := ⟨⟨[], ∅⟩⟩

/-- The coordinate scan of `Implicant::try_merge`: walk both value vectors,
carrying the index and the `diff_idx` accumulator.  Equal coordinates pass;
a `Zero`/`One` complementary pair is recorded when no difference was seen
yet; anything else (a second difference, or a difference involving
`DontCare`) aborts with `none`.  `some acc` is the loop finishing with
`diff_idx = acc`. -/
def findDiff : List Output → List Output → Nat → Option Nat → Option (Option Nat)
  | [], [], _, diff => some diff
  | a :: as, b :: bs, idx, diff =>
    if a = b then findDiff as bs (idx + 1) diff
    else if ((a = Output.Zero ∧ b = Output.One) ∨ (a = Output.One ∧ b = Output.Zero))
        ∧ diff = none then
      findDiff as bs (idx + 1) (some idx)
    else none
  | _, _, _, _ => none

/-- `Implicant::try_merge`: on success the differing coordinate becomes
`DontCare` and the constituents of `other` are unioned in. -/
def Implicant.try_merge (a b : Implicant) : Option Implicant :=
  match findDiff a.values b.values 0 none with
  | some (some d) => some ⟨a.values.set d Output.DontCare, a.constituents ∪ b.constituents⟩
  | some none => none
  | none => none

/-- `Implicant::from_table_idx`: coordinate `var` is bit `var` of `idx`
(Rust `(idx >> var) % 2 == 1`); the constituent set is `{idx}` for a
minterm and empty otherwise. -/
def Implicant.from_table_idx (N idx : Nat) (is_minterm : Bool) : Implicant :=
  ⟨(List.range N).map (fun var => if (idx >>> var) % 2 = 1 then Output.One else Output.Zero),
   if is_minterm then {idx} else ∅⟩

/-- `Table<N>` from table.rs: `outputs: [Output; 1 << N]`.  The array length
is a type-level fact in Rust; here it is the invariant `hlen`. -/
structure Table (N : Nat) where
  outputs : List Output
  hlen : outputs.length = 2 ^ N

/-- `Table::minterms`: the set of indices whose output is `One`. -/
def Table.minterms {N : Nat} (t : Table N) : Finset Nat :=
  (Finset.range (2 ^ N)).filter (fun idx => t.outputs.getD idx Output.Zero = Output.One)

/-- `Table::is_minterm`: `matches!(self.outputs[idx], Output::One)`.  Rust's
`self.outputs[idx]` is a bounds-checked index that panics when
`idx >= 2^N`; the panic is modelled as `none`. -/
def Table.is_minterm {N : Nat} (t : Table N) (idx : Nat) : Option Bool :=
  if h : idx < t.outputs.length then some (decide (t.outputs.get ⟨idx, h⟩ = Output.One))
  else none

/-- The seeding of generation 0 in `Table::prime_implicants`: one implicant
per table index whose output is not `Zero`, tagged as a constituent of
itself exactly when the output is `One`. -/
def Table.seeds {N : Nat} (t : Table N) : List Implicant :=
  ((List.range (2 ^ N)).filter (fun idx => decide (t.outputs.getD idx Output.Zero ≠ Output.Zero))).map
    (fun idx => Implicant.from_table_idx N idx (decide (t.outputs.getD idx Output.Zero = Output.One)))

/-- `HashSet::insert` on `HashSet<Implicant>` with `Implicant`'s values-only
equality: if an element with the same value vector is present the set is
unchanged (the new element, constituents included, is discarded);
otherwise the element is appended.  The list keeps insertion order. -/
def insertDedup (s : List Implicant) (x : Implicant) : List Implicant :=
  if s.any (fun y => decide (y.values = x.values)) then s else s ++ [x]

/-- The inner `for second_idx in first_idx..implicants.len()` loop of
`Table::prime_implicants`, running `k` more iterations from `second`:
each successful `try_merge` is inserted into the next generation and marks
both indices in the `merged` flag array. -/
def innerPass (L : List Implicant) (first : Nat) :
    Nat → Nat → List Bool → List Implicant → List Bool × List Implicant
  | 0, _, merged, next => (merged, next)
  | Nat.succ k, second, merged, next =>
    match Implicant.try_merge (L.getD first default) (L.getD second default) with
    | some m =>
      innerPass L first k (second + 1) ((merged.set first true).set second true) (insertDedup next m)
    | none => innerPass L first k (second + 1) merged next

/-- The outer `for first_idx in 0..implicants.len()` loop: after the inner
loop for `first`, the implicant at `first` is pushed onto the prime list
when its `merged` flag is still unset. -/
def outerPass (L : List Implicant) :
    Nat → Nat → List Bool → List Implicant → List Implicant →
      List Bool × List Implicant × List Implicant
  | 0, _, merged, next, primes => (merged, next, primes)
  | Nat.succ k, first, merged, next, primes =>
    let r := innerPass L first (L.length - first) first merged next
    outerPass L k (first + 1) r.1 r.2
      (if r.1.getD first false then primes else primes ++ [L.getD first default])

/-- One full pass of the `loop` body on a generation, accumulating nothing:
final flag array, the next generation, and the primes pushed this pass. -/
def passResult (L : List Implicant) : List Bool × List Implicant × List Implicant :=
  outerPass L L.length 0 (List.replicate L.length false) [] []

/-- The next generation a pass produces. -/
def passNext (L : List Implicant) : List Implicant := (passResult L).2.1

/-- The primes a pass pushes. -/
def passPrimes (L : List Implicant) : List Implicant := (passResult L).2.2

/-- The `loop` of `Table::prime_implicants`: run a pass; stop when the next
generation is empty, else continue on it.  `fuel` bounds the number of
passes; `none` models a run that would need more (proved impossible from
`Table.prime_implicants`'s fuel below). -/
def primeLoop : Nat → List Implicant → List Implicant → Option (List Implicant)
  | 0, _, _ => none
  | Nat.succ fuel, implicants, primes =>
    let r := outerPass implicants implicants.length 0
      (List.replicate implicants.length false) [] primes
    if r.2.1.isEmpty then some r.2.2 else primeLoop fuel r.2.1 r.2.2

/-- `Table::prime_implicants`.  A pass on a generation whose implicants have
`g` don't-cares produces one with `g + 1`, and no value vector holds more
than `N`, so `N + 2` passes always suffice. -/
def Table.prime_implicants {N : Nat} (t : Table N) : Option (List Implicant) :=
  primeLoop (N + 2) t.seeds []

/-- Generation `g` of the merge loop: `0` is the seeding, `g + 1` the pass
successor of `g`. -/
def Table.generation {N : Nat} (t : Table N) : Nat → List Implicant
  | 0 => t.seeds
  | Nat.succ g => passNext (t.generation g)

/-- The covering test of the integer program's constraints: every universe
element is in the set of at least one chosen index. -/
def coversUniverse (uni : Finset Nat) (sets : List (Finset Nat)) (choice : List Nat) : Bool :=
  decide (∀ item ∈ uni, ∃ idx ∈ choice, item ∈ sets.getD idx ∅)

/-- First list of minimum length among candidates. -/
def pickMinLen : List (List Nat) → Option (List Nat)
  | [] => none
  | c :: cs =>
    match pickMinLen cs with
    | none => some c
    | some b => if c.length ≤ b.length then some c else some b

/-- Modelled from the spec: the body of `cover` in `Table::minimize` builds a
0/1 integer program (one binary variable per candidate set, objective the
number of selected sets, one `≥ 1` covering constraint per universe
element) and hands it to the external coin_cbc solver, which is not part
of this repository.  Per the spec the solver returns a provably
minimum-cardinality cover, and `solve().unwrap()` aborts when the program
is infeasible.  The model therefore returns a covering choice of indices
of minimum cardinality in ascending order (the source reads the selection
off `include_vars` in ascending index order), and `none` when no covering
choice exists. -/
def cover (uni : Finset Nat) (sets : List (Finset Nat)) : Option (List Nat) :=
  pickMinLen (((List.range sets.length).sublists).filter (coversUniverse uni sets))

/-- The `.iter().rev().map(|&idx| primes.remove(idx))` extraction in
`Table::minimize`: pop the selected indices (descending after `rev`) out
of the prime list, collecting the removed implicants. -/
def extractAll : List Implicant → List Nat → List Implicant
  | _, [] => []
  | primes, idx :: rest => primes.getD idx default :: extractAll (primes.eraseIdx idx) rest

/-- `Table::minimize`: prime implicants, then the minimum set cover of the
minterm universe by their constituent sets, then extraction of the
selected implicants.  `none` models the merge loop not terminating or the
solver aborting, both proved impossible below. -/
def Table.minimize {N : Nat} (t : Table N) : Option (List Implicant) :=
  match t.prime_implicants with
  | none => none
  | some primes =>
    match cover t.minterms (primes.map (fun p => p.constituents)) with
    | none => none
    | some sel => some (extractAll primes sel.reverse)

/-- Merge attempt between the implicants at positions `i` and `j` of a
generation (the loop body's pair). -/
def mergeAt (L : List Implicant) (i j : Nat) : Option Implicant :=
  Implicant.try_merge (L.getD i default) (L.getD j default)

/-- Whether the implicant at position `i` merges with any implicant of the
generation (the final state of `merged[i]`). -/
def mergesAny (L : List Implicant) (i : Nat) : Bool :=
  (List.range L.length).any (fun j => (mergeAt L i j).isSome)

/-- Don't-care count of a value vector. -/
def dcCount (v : List Output) : Nat := v.count Output.DontCare

/-- Index `idx` lies in the cube of a value vector: every `One` coordinate
is a set bit and every `Zero` coordinate a clear bit. -/
def cubeMatches (v : List Output) (idx : Nat) : Bool :=
  (List.range v.length).all (fun var =>
    match v.getD var Output.DontCare with
    | Output.One => decide ((idx >>> var) % 2 = 1)
    | Output.Zero => decide ((idx >>> var) % 2 = 0)
    | Output.DontCare => true)

/-- Union over a selection of the constituents intersected with a minterm
set (the covering property's left-hand side). -/
def unionCovered (sel : List Implicant) (M : Finset Nat) : Finset Nat :=
  sel.foldr (fun p acc => (p.constituents ∩ M) ∪ acc) ∅

/-! ### List helpers -/

theorem getD_set_self {α : Type} (l : List α) (i : Nat) (x d : α) (h : i < l.length) :
    (l.set i x).getD i d = x := by
  induction l generalizing i with
  | nil => simp at h
  | cons a as ih =>
    cases i with
    | zero => rfl
    | succ i => exact ih i (Nat.lt_of_succ_lt_succ h)

theorem getD_set_ne {α : Type} (l : List α) (i j : Nat) (x d : α) (h : i ≠ j) :
    (l.set i x).getD j d = l.getD j d := by
  induction l generalizing i j with
  | nil => rfl
  | cons a as ih =>
    cases i with
    | zero =>
      cases j with
      | zero => exact absurd rfl h
      | succ j => rfl
    | succ i =>
      cases j with
      | zero => rfl
      | succ j => exact ih i j (fun hc => h (by rw [hc]))

theorem getD_replicate_false (n i : Nat) :
    (List.replicate n false).getD i false = false := by
  induction n generalizing i with
  | zero => rfl
  | succ n ih =>
    cases i with
    | zero => rfl
    | succ i => exact ih i

theorem list_eq_of_getD {α : Type} (as bs : List α) (d : α)
    (hlen : as.length = bs.length)
    (h : ∀ i, i < as.length → as.getD i d = bs.getD i d) : as = bs := by
  induction as generalizing bs with
  | nil =>
    cases bs with
    | nil => rfl
    | cons b bs => simp at hlen
  | cons a as ih =>
    cases bs with
    | nil => simp at hlen
    | cons b bs =>
      have h0 : a = b := h 0 (Nat.succ_pos _)
      have htail : as = bs := by
        refine ih bs (by simpa using hlen) (fun i hi => ?_)
        exact h (i + 1) (Nat.succ_lt_succ hi)
      rw [h0, htail]

theorem getD_mem {α : Type} (l : List α) (i : Nat) (d : α) (h : i < l.length) :
    l.getD i d ∈ l := by
  induction l generalizing i with
  | nil => simp at h
  | cons a as ih =>
    cases i with
    | zero => exact List.mem_cons_self _ _
    | succ i => exact List.mem_cons_of_mem _ (ih i (Nat.lt_of_succ_lt_succ h))

theorem mem_getD {α : Type} {l : List α} {x : α} (d : α) (h : x ∈ l) :
    ∃ i, i < l.length ∧ l.getD i d = x := by
  induction l with
  | nil => simp at h
  | cons a as ih =>
    rcases List.mem_cons.mp h with h0 | hmem
    · exact ⟨0, Nat.succ_pos _, h0.symm⟩
    · obtain ⟨i, hi, hx⟩ := ih hmem
      exact ⟨i + 1, Nat.succ_lt_succ hi, hx⟩

theorem set_getD_self {α : Type} (l : List α) (i : Nat) (d : α)
    (h : i < l.length) : l.set i (l.getD i d) = l := by
  induction l generalizing i with
  | nil => rfl
  | cons a as ih =>
    cases i with
    | zero => rfl
    | succ i => simpa using ih i (Nat.lt_of_succ_lt_succ h)

theorem getD_eraseIdx_of_lt {α : Type} (l : List α) (i j : Nat) (d : α) (h : j < i) :
    (l.eraseIdx i).getD j d = l.getD j d := by
  induction l generalizing i j with
  | nil => rfl
  | cons a as ih =>
    cases i with
    | zero => simp at h
    | succ i =>
      cases j with
      | zero => rfl
      | succ j => exact ih i j (Nat.lt_of_succ_lt_succ h)

/-! ### The merge scan `findDiff` -/

/-- A `Zero`/`One` complementary pair of coordinates. -/
def isCompPair (a b : Output) : Prop :=
  (a = Output.Zero ∧ b = Output.One) ∨ (a = Output.One ∧ b = Output.Zero)

theorem findDiff_self (l : List Output) (idx : Nat) (acc : Option Nat) :
    findDiff l l idx acc = some acc := by
  induction l generalizing idx with
  | nil => rfl
  | cons a as ih => simp [findDiff, ih]

theorem findDiff_some_acc (as : List Output) :
    ∀ (bs : List Output) (idx j : Nat) (r : Option Nat),
      findDiff as bs idx (some j) = some r → as = bs ∧ r = some j := by
  induction as with
  | nil =>
    intro bs idx j r h
    cases bs with
    | nil => exact ⟨rfl, by simpa [findDiff] using h.symm⟩
    | cons b bs => simp [findDiff] at h
  | cons a as ih =>
    intro bs idx j r h
    cases bs with
    | nil => simp [findDiff] at h
    | cons b bs =>
      by_cases hab : a = b
      · subst hab
        rw [findDiff, if_pos rfl] at h
        obtain ⟨h1, h2⟩ := ih bs (idx + 1) j r h
        exact ⟨by rw [h1], h2⟩
      · rw [findDiff, if_neg hab, if_neg (by simp)] at h
        exact absurd h (by simp)

theorem findDiff_some_some (as : List Output) :
    ∀ (bs : List Output) (idx d : Nat),
      findDiff as bs idx none = some (some d) →
      ∃ p, d = idx + p ∧ p < as.length ∧ as.length = bs.length ∧
        isCompPair (as.getD p Output.DontCare) (bs.getD p Output.DontCare) ∧
        (∀ i, i < as.length → i ≠ p →
          as.getD i Output.DontCare = bs.getD i Output.DontCare) := by
  induction as with
  | nil =>
    intro bs idx d h
    cases bs with
    | nil => simp [findDiff] at h
    | cons b bs => simp [findDiff] at h
  | cons a as ih =>
    intro bs idx d h
    cases bs with
    | nil => simp [findDiff] at h
    | cons b bs =>
      by_cases hab : a = b
      · subst hab
        rw [findDiff, if_pos rfl] at h
        obtain ⟨p, hdp, hp, hlen, hcomp, hagree⟩ := ih bs (idx + 1) d h
        refine ⟨p + 1, by omega, Nat.succ_lt_succ hp, by simpa using hlen, ?_, ?_⟩
        · simpa using hcomp
        · intro i hi hne
          cases i with
          | zero => rfl
          | succ i =>
            simpa using hagree i (Nat.lt_of_succ_lt_succ hi) (fun hc => hne (by rw [hc]))
      · rw [findDiff, if_neg hab] at h
        by_cases hcp : (a = Output.Zero ∧ b = Output.One) ∨ (a = Output.One ∧ b = Output.Zero)
        · rw [if_pos ⟨hcp, rfl⟩] at h
          obtain ⟨heq, hr⟩ := findDiff_some_acc as bs (idx + 1) idx (some d) h
          have hd : d = idx := Option.some.inj hr
          refine ⟨0, by omega, Nat.succ_pos _, by simpa using congrArg List.length heq, ?_, ?_⟩
          · simpa [isCompPair] using hcp
          · intro i hi hne
            cases i with
            | zero => exact absurd rfl hne
            | succ i => simp [heq]
        · rw [if_neg (by simp [hcp])] at h
          exact absurd h (by simp)

theorem findDiff_of_single_diff (as : List Output) :
    ∀ (bs : List Output) (idx p : Nat),
      as.length = bs.length → p < as.length →
      isCompPair (as.getD p Output.DontCare) (bs.getD p Output.DontCare) →
      (∀ i, i < as.length → i ≠ p →
        as.getD i Output.DontCare = bs.getD i Output.DontCare) →
      findDiff as bs idx none = some (some (idx + p)) := by
  induction as with
  | nil =>
    intro bs idx p hlen hp
    simp at hp
  | cons a as ih =>
    intro bs idx p hlen hp hcomp hagree
    cases bs with
    | nil => simp at hlen
    | cons b bs =>
      cases p with
      | zero =>
        have hab : a ≠ b := by
          rcases hcomp with ⟨h1, h2⟩ | ⟨h1, h2⟩ <;> simp_all
        have htail : as = bs := by
          refine list_eq_of_getD as bs Output.DontCare (by simpa using hlen) (fun i hi => ?_)
          simpa using hagree (i + 1) (Nat.succ_lt_succ hi) (by simp)
        have hcp : (a = Output.Zero ∧ b = Output.One) ∨ (a = Output.One ∧ b = Output.Zero) := by
          simpa [isCompPair] using hcomp
        rw [findDiff, if_neg hab, if_pos ⟨hcp, rfl⟩, htail, findDiff_self, Nat.add_zero]
      | succ p =>
        have hab : a = b := by simpa using hagree 0 (Nat.succ_pos _) (by simp)
        subst hab
        rw [findDiff, if_pos rfl]
        have := ih bs (idx + 1) p (by simpa using hlen) (Nat.lt_of_succ_lt_succ hp)
          (by simpa using hcomp)
          (fun i hi hne => by
            simpa using hagree (i + 1) (Nat.succ_lt_succ hi) (fun hc => hne (by omega)))
        rw [this]
        congr 2
        omega

/-! ### Characterization of `try_merge` -/

theorem Implicant.try_merge_some {a b c : Implicant} (h : a.try_merge b = some c) :
    ∃ d, d < a.values.length ∧ a.values.length = b.values.length ∧
      isCompPair (a.values.getD d Output.DontCare) (b.values.getD d Output.DontCare) ∧
      (∀ i, i < a.values.length → i ≠ d →
        a.values.getD i Output.DontCare = b.values.getD i Output.DontCare) ∧
      c.values = a.values.set d Output.DontCare ∧
      c.constituents = a.constituents ∪ b.constituents := by
  unfold Implicant.try_merge at h
  cases hf : findDiff a.values b.values 0 none with
  | none => rw [hf] at h; exact absurd h (by simp)
  | some o =>
    cases o with
    | none => rw [hf] at h; exact absurd h (by simp)
    | some d =>
      rw [hf] at h
      obtain ⟨p, hdp, hp, hlen, hcomp, hagree⟩ := findDiff_some_some _ _ _ _ hf
      have hpd : d = p := by omega
      subst hpd
      refine ⟨d, hp, hlen, hcomp, hagree, ?_, ?_⟩
      · have := Option.some.inj h
        rw [← this]
      · have := Option.some.inj h
        rw [← this]

theorem Implicant.try_merge_eq_some (a b : Implicant) (d : Nat)
    (hlen : a.values.length = b.values.length) (hd : d < a.values.length)
    (hcomp : isCompPair (a.values.getD d Output.DontCare) (b.values.getD d Output.DontCare))
    (hagree : ∀ i, i < a.values.length → i ≠ d →
      a.values.getD i Output.DontCare = b.values.getD i Output.DontCare) :
    a.try_merge b =
      some ⟨a.values.set d Output.DontCare, a.constituents ∪ b.constituents⟩ := by
  have hf := findDiff_of_single_diff a.values b.values 0 d hlen hd hcomp hagree
  rw [Nat.zero_add] at hf
  unfold Implicant.try_merge
  rw [hf]

theorem Implicant.try_merge_self_eq_none {a b : Implicant} (h : a.values = b.values) :
    a.try_merge b = none := by
  unfold Implicant.try_merge
  rw [h, findDiff_self]

theorem Implicant.try_merge_symm {a b c : Implicant} (h : a.try_merge b = some c) :
    ∃ c', b.try_merge a = some c' ∧ c'.values = c.values ∧
      c'.constituents = c.constituents := by
  obtain ⟨d, hd, hlen, hcomp, hagree, hv, hc⟩ := Implicant.try_merge_some h
  have hcomp' : isCompPair (b.values.getD d Output.DontCare) (a.values.getD d Output.DontCare) := by
    rcases hcomp with ⟨h1, h2⟩ | ⟨h1, h2⟩
    · exact Or.inr ⟨h2, h1⟩
    · exact Or.inl ⟨h2, h1⟩
  have hagree' : ∀ i, i < b.values.length → i ≠ d →
      b.values.getD i Output.DontCare = a.values.getD i Output.DontCare := by
    intro i hi hne
    exact (hagree i (hlen ▸ hi) hne).symm
  refine ⟨_, Implicant.try_merge_eq_some b a d hlen.symm (hlen ▸ hd) hcomp' hagree', ?_, ?_⟩
  · rw [hv]
    refine list_eq_of_getD _ _ Output.DontCare (by simp [hlen]) (fun i hi => ?_)
    by_cases hid : i = d
    · subst hid
      rw [getD_set_self _ _ _ _ (by simpa using hi),
        getD_set_self _ _ _ _ (by rw [hlen]; simpa using hi)]
    · rw [getD_set_ne _ _ _ _ _ (fun hc => hid hc.symm),
        getD_set_ne _ _ _ _ _ (fun hc => hid hc.symm)]
      exact (hagree i (by rw [hlen]; simpa using hi) hid).symm
  · rw [hc]
    exact Finset.union_comm _ _

theorem Implicant.try_merge_isSome_symm (a b : Implicant) :
    (a.try_merge b).isSome = (b.try_merge a).isSome := by
  cases hab : a.try_merge b with
  | some c =>
    obtain ⟨c', hc', _, _⟩ := Implicant.try_merge_symm hab
    rw [hc']
    rfl
  | none =>
    cases hba : b.try_merge a with
    | none => rfl
    | some c =>
      obtain ⟨c', hc', _, _⟩ := Implicant.try_merge_symm hba
      rw [hc'] at hab
      exact absurd hab (by simp)

/-! ### The deduplicating insertion -/

theorem insertDedup_subset (s : List Implicant) (x : Implicant) : s ⊆ insertDedup s x := by
  unfold insertDedup
  by_cases h : s.any (fun y => decide (y.values = x.values))
  · rw [if_pos h]
    exact fun y hy => hy
  · rw [if_neg h]
    exact List.subset_append_left _ _

theorem mem_insertDedup {s : List Implicant} {x y : Implicant}
    (h : y ∈ insertDedup s x) : y ∈ s ∨ y = x := by
  unfold insertDedup at h
  by_cases hc : s.any (fun y => decide (y.values = x.values))
  · rw [if_pos hc] at h
    exact Or.inl h
  · rw [if_neg hc] at h
    rcases List.mem_append.mp h with h1 | h2
    · exact Or.inl h1
    · exact Or.inr (List.mem_singleton.mp h2)

theorem insertDedup_rep (s : List Implicant) (x : Implicant) :
    ∃ y ∈ insertDedup s x, y.values = x.values := by
  unfold insertDedup
  by_cases h : s.any (fun y => decide (y.values = x.values))
  · rw [if_pos h]
    obtain ⟨y, hy, hyx⟩ := List.any_eq_true.mp h
    exact ⟨y, hy, of_decide_eq_true hyx⟩
  · rw [if_neg h]
    exact ⟨x, List.mem_append_right _ (List.mem_singleton_self x), rfl⟩

theorem insertDedup_nodup {s : List Implicant} {x : Implicant}
    (h : s.Pairwise (fun p q => p.values ≠ q.values)) :
    (insertDedup s x).Pairwise (fun p q => p.values ≠ q.values) := by
  unfold insertDedup
  by_cases hc : s.any (fun y => decide (y.values = x.values))
  · rw [if_pos hc]
    exact h
  · rw [if_neg hc]
    rw [List.pairwise_append]
    refine ⟨h, List.pairwise_singleton _ _, fun p hp q hq => ?_⟩
    rw [List.mem_singleton.mp hq]
    intro hpx
    have : s.any (fun y => decide (y.values = x.values)) = true :=
      List.any_eq_true.mpr ⟨p, hp, decide_eq_true hpx⟩
    exact absurd this (by simpa using hc)

/-! ### The inner loop -/

theorem innerPass_merged_length (L : List Implicant) (f : Nat) :
    ∀ (k s : Nat) (merged : List Bool) (next : List Implicant),
      (innerPass L f k s merged next).1.length = merged.length := by
  intro k
  induction k with
  | zero => intro s merged next; rfl
  | succ k ih =>
    intro s merged next
    unfold innerPass
    cases hm : Implicant.try_merge (L.getD f default) (L.getD s default) with
    | some m => rw [ih]; simp
    | none => exact ih _ _ _

theorem innerPass_flag (L : List Implicant) (f : Nat) :
    ∀ (k s : Nat) (merged : List Bool) (next : List Implicant) (i : Nat),
      f < merged.length → s + k ≤ merged.length →
      ((innerPass L f k s merged next).1.getD i false = true ↔
        merged.getD i false = true ∨
          ∃ j, s ≤ j ∧ j < s + k ∧ (mergeAt L f j).isSome ∧ (i = f ∨ i = j)) := by
  intro k
  induction k with
  | zero =>
    intro s merged next i hf hs
    constructor
    · exact fun h => Or.inl h
    · rintro (h | ⟨j, hj1, hj2, _, _⟩)
      · exact h
      · omega
  | succ k ih =>
    intro s merged next i hf hs
    unfold innerPass
    cases hm : Implicant.try_merge (L.getD f default) (L.getD s default) with
    | some m =>
      rw [ih (s + 1) _ _ i (by simpa using hf) (by simp; omega)]
      have hsl : s < merged.length := by omega
      have hflag : ((merged.set f true).set s true).getD i false = true ↔
          merged.getD i false = true ∨ i = f ∨ i = s := by
        by_cases his : i = s
        · subst his
          rw [getD_set_self _ _ _ _ (by simpa using hsl)]
          simp
        · rw [getD_set_ne _ _ _ _ _ (fun hc => his hc.symm)]
          by_cases hif : i = f
          · subst hif
            rw [getD_set_self _ _ _ _ hf]
            simp
          · rw [getD_set_ne _ _ _ _ _ (fun hc => hif hc.symm)]
            simp [hif, his]
      rw [hflag]
      have hms : (mergeAt L f s).isSome := by rw [mergeAt, hm]; rfl
      constructor
      · rintro ((h | h | h) | ⟨j, hj1, hj2, hj3, hj4⟩)
        · exact Or.inl h
        · exact Or.inr ⟨s, by omega, by omega, hms, Or.inl h⟩
        · exact Or.inr ⟨s, by omega, by omega, hms, Or.inr h⟩
        · exact Or.inr ⟨j, by omega, by omega, hj3, hj4⟩
      · rintro (h | ⟨j, hj1, hj2, hj3, hj4⟩)
        · exact Or.inl (Or.inl h)
        · by_cases hjs : j = s
          · subst hjs
            rcases hj4 with h4 | h4
            · exact Or.inl (Or.inr (Or.inl h4))
            · exact Or.inl (Or.inr (Or.inr h4))
          · exact Or.inr ⟨j, by omega, by omega, hj3, hj4⟩
    | none =>
      rw [ih (s + 1) _ _ i hf (by omega)]
      have hms : ¬(mergeAt L f s).isSome := by rw [mergeAt, hm]; simp
      constructor
      · rintro (h | ⟨j, hj1, hj2, hj3, hj4⟩)
        · exact Or.inl h
        · exact Or.inr ⟨j, by omega, by omega, hj3, hj4⟩
      · rintro (h | ⟨j, hj1, hj2, hj3, hj4⟩)
        · exact Or.inl h
        · by_cases hjs : j = s
          · subst hjs
            exact absurd hj3 hms
          · exact Or.inr ⟨j, by omega, by omega, hj3, hj4⟩

theorem innerPass_next_subset (L : List Implicant) (f : Nat) :
    ∀ (k s : Nat) (merged : List Bool) (next : List Implicant),
      next ⊆ (innerPass L f k s merged next).2 := by
  intro k
  induction k with
  | zero => intro s merged next; exact fun x h => h
  | succ k ih =>
    intro s merged next
    unfold innerPass
    cases hm : Implicant.try_merge (L.getD f default) (L.getD s default) with
    | some m => exact fun x h => ih _ _ _ (insertDedup_subset _ _ h)
    | none => exact ih _ _ _

theorem innerPass_next_mem (L : List Implicant) (f : Nat) :
    ∀ (k s : Nat) (merged : List Bool) (next : List Implicant) (x : Implicant),
      x ∈ (innerPass L f k s merged next).2 →
      x ∈ next ∨ ∃ j, s ≤ j ∧ j < s + k ∧ mergeAt L f j = some x := by
  intro k
  induction k with
  | zero => intro s merged next x h; exact Or.inl h
  | succ k ih =>
    intro s merged next x h
    unfold innerPass at h
    cases hm : Implicant.try_merge (L.getD f default) (L.getD s default) with
    | some m =>
      rw [hm] at h
      rcases ih _ _ _ _ h with h1 | ⟨j, hj1, hj2, hj3⟩
      · rcases mem_insertDedup h1 with h2 | h2
        · exact Or.inl h2
        · exact Or.inr ⟨s, Nat.le_refl _, by omega, by rw [mergeAt, hm, h2]⟩
      · exact Or.inr ⟨j, by omega, by omega, hj3⟩
    | none =>
      rw [hm] at h
      rcases ih _ _ _ _ h with h1 | ⟨j, hj1, hj2, hj3⟩
      · exact Or.inl h1
      · exact Or.inr ⟨j, by omega, by omega, hj3⟩

theorem innerPass_next_rep (L : List Implicant) (f : Nat) :
    ∀ (k s : Nat) (merged : List Bool) (next : List Implicant) (j : Nat) (m : Implicant),
      s ≤ j → j < s + k → mergeAt L f j = some m →
      ∃ x ∈ (innerPass L f k s merged next).2, x.values = m.values := by
  intro k
  induction k with
  | zero => intro s merged next j m h1 h2; omega
  | succ k ih =>
    intro s merged next j m h1 h2 h3
    unfold innerPass
    by_cases hjs : j = s
    · subst hjs
      rw [mergeAt] at h3
      rw [h3]
      obtain ⟨y, hy, hyv⟩ := insertDedup_rep next m
      exact ⟨y, innerPass_next_subset L f k (j + 1) _ _ hy, hyv⟩
    · cases hm : Implicant.try_merge (L.getD f default) (L.getD s default) with
      | some m' => exact ih (s + 1) _ _ j m (by omega) (by omega) h3
      | none => exact ih (s + 1) _ _ j m (by omega) (by omega) h3

theorem innerPass_next_nodup (L : List Implicant) (f : Nat) :
    ∀ (k s : Nat) (merged : List Bool) (next : List Implicant),
      next.Pairwise (fun p q => p.values ≠ q.values) →
      (innerPass L f k s merged next).2.Pairwise (fun p q => p.values ≠ q.values) := by
  intro k
  induction k with
  | zero => intro s merged next h; exact h
  | succ k ih =>
    intro s merged next h
    unfold innerPass
    cases hm : Implicant.try_merge (L.getD f default) (L.getD s default) with
    | some m => exact ih _ _ _ (insertDedup_nodup h)
    | none => exact ih _ _ _ h

/-! ### The outer loop -/

theorem outerPass_primes_acc (L : List Implicant) :
    ∀ (k f : Nat) (merged : List Bool) (next primes : List Implicant),
      outerPass L k f merged next primes =
        ((outerPass L k f merged next []).1, (outerPass L k f merged next []).2.1,
          primes ++ (outerPass L k f merged next []).2.2) := by
  intro k
  induction k with
  | zero => intro f merged next primes; simp [outerPass]
  | succ k ih =>
    intro f merged next primes
    unfold outerPass
    by_cases hflag : (innerPass L f (L.length - f) f merged next).1.getD f false
    · simp only [hflag, if_true]
      rw [ih _ _ _ primes, ih _ _ _ ([] : List Implicant)]
    · simp only [hflag, Bool.false_eq_true, if_false, List.nil_append]
      rw [ih _ _ _ (primes ++ [L.getD f default]), ih _ _ _ ([L.getD f default])]
      simp

theorem outerPass_merged_length (L : List Implicant) :
    ∀ (k f : Nat) (merged : List Bool) (next primes : List Implicant),
      (outerPass L k f merged next primes).1.length = merged.length := by
  intro k
  induction k with
  | zero => intro f merged next primes; rfl
  | succ k ih =>
    intro f merged next primes
    unfold outerPass
    rw [ih]
    exact innerPass_merged_length L f _ _ _ _

theorem outerPass_next_subset (L : List Implicant) :
    ∀ (k f : Nat) (merged : List Bool) (next primes : List Implicant),
      next ⊆ (outerPass L k f merged next primes).2.1 := by
  intro k
  induction k with
  | zero => intro f merged next primes x h; exact h
  | succ k ih =>
    intro f merged next primes x h
    unfold outerPass
    exact ih _ _ _ _ (innerPass_next_subset L f _ _ _ _ h)

theorem outerPass_next_mem (L : List Implicant) :
    ∀ (k f : Nat) (merged : List Bool) (next primes : List Implicant) (x : Implicant),
      x ∈ (outerPass L k f merged next primes).2.1 →
      x ∈ next ∨ ∃ i j, i < L.length ∧ j < L.length ∧ mergeAt L i j = some x := by
  intro k
  induction k with
  | zero => intro f merged next primes x h; exact Or.inl h
  | succ k ih =>
    intro f merged next primes x h
    unfold outerPass at h
    rcases ih _ _ _ _ _ h with h1 | h1
    · rcases innerPass_next_mem L f _ _ _ _ _ h1 with h2 | ⟨j, hj1, hj2, hj3⟩
      · exact Or.inl h2
      · exact Or.inr ⟨f, j, by omega, by omega, hj3⟩
    · exact Or.inr h1

theorem outerPass_next_rep (L : List Implicant) :
    ∀ (k f : Nat) (merged : List Bool) (next primes : List Implicant) (i j : Nat)
      (m : Implicant),
      f + k = L.length → f ≤ i → i ≤ j → j < L.length → mergeAt L i j = some m →
      ∃ x ∈ (outerPass L k f merged next primes).2.1, x.values = m.values := by
  intro k
  induction k with
  | zero => intro f merged next primes i j m hk h1 h2 h3; omega
  | succ k ih =>
    intro f merged next primes i j m hk h1 h2 h3 hm
    unfold outerPass
    by_cases hif : i = f
    · subst hif
      obtain ⟨x, hx, hxv⟩ :=
        innerPass_next_rep L i (L.length - i) i merged next j m h2 (by omega) hm
      exact ⟨x, outerPass_next_subset L _ _ _ _ _ hx, hxv⟩
    · exact ih _ _ _ _ i j m (by omega) (by omega) h2 h3 hm

theorem outerPass_next_nodup (L : List Implicant) :
    ∀ (k f : Nat) (merged : List Bool) (next primes : List Implicant),
      next.Pairwise (fun p q => p.values ≠ q.values) →
      (outerPass L k f merged next primes).2.1.Pairwise (fun p q => p.values ≠ q.values) := by
  intro k
  induction k with
  | zero => intro f merged next primes h; exact h
  | succ k ih =>
    intro f merged next primes h
    unfold outerPass
    exact ih _ _ _ _ (innerPass_next_nodup L f _ _ _ _ h)

theorem outerPass_primes_char (L : List Implicant) :
    ∀ (k f : Nat) (merged : List Bool) (next primes : List Implicant),
      f + k = L.length → merged.length = L.length →
      (∀ i, f ≤ i → i < L.length →
        (merged.getD i false = true ↔ ∃ a, a < f ∧ (mergeAt L a i).isSome)) →
      (outerPass L k f merged next primes).2.2 =
        primes ++ ((List.range' f k).filter (fun i => !(mergesAny L i))).map
          (fun i => L.getD i default) := by
  intro k
  induction k with
  | zero => intro f merged next primes hk hm hfi; simp [outerPass]
  | succ k ih =>
    intro f merged next primes hk hm hfi
    have hflen : f < L.length := by omega
    have hfm : f < merged.length := by omega
    have hinlen : f + (L.length - f) ≤ merged.length := by omega
    -- the flag at `f` after the inner loop equals `mergesAny L f`
    have hflag := innerPass_flag L f (L.length - f) f merged next f hfm hinlen
    have hflag_iff : ((innerPass L f (L.length - f) f merged next).1.getD f false = true ↔
        mergesAny L f = true) := by
      rw [hflag, hfi f (Nat.le_refl f) hflen]
      unfold mergesAny
      rw [List.any_eq_true]
      constructor
      · rintro (⟨a, ha, hsome⟩ | ⟨j, hj1, hj2, hj3, _⟩)
        · refine ⟨a, List.mem_range.mpr (by omega), ?_⟩
          rw [mergeAt] at hsome ⊢
          rw [← Implicant.try_merge_isSome_symm]
          exact hsome
        · exact ⟨j, List.mem_range.mpr (by omega), hj3⟩
      · rintro ⟨j, hjmem, hsome⟩
        have hj : j < L.length := List.mem_range.mp hjmem
        by_cases hjf : j < f
        · refine Or.inl ⟨j, hjf, ?_⟩
          rw [mergeAt] at hsome ⊢
          rw [← Implicant.try_merge_isSome_symm]
          exact hsome
        · exact Or.inr ⟨j, by omega, by omega, hsome, Or.inl rfl⟩
    have hflag_eq : (innerPass L f (L.length - f) f merged next).1.getD f false =
        mergesAny L f := by
      cases hma : mergesAny L f with
      | true => exact hflag_iff.mpr hma
      | false =>
        cases hfv : (innerPass L f (L.length - f) f merged next).1.getD f false with
        | true => rw [hma] at hflag_iff; exact absurd (hflag_iff.mp hfv) (by simp)
        | false => rfl
    -- the invariant advances to `f + 1`
    have hfi' : ∀ i, f + 1 ≤ i → i < L.length →
        ((innerPass L f (L.length - f) f merged next).1.getD i false = true ↔
          ∃ a, a < f + 1 ∧ (mergeAt L a i).isSome) := by
      intro i hi1 hi2
      rw [innerPass_flag L f (L.length - f) f merged next i hfm hinlen,
        hfi i (by omega) hi2]
      constructor
      · rintro (⟨a, ha, hsome⟩ | ⟨j, hj1, hj2, hj3, hj4⟩)
        · exact ⟨a, by omega, hsome⟩
        · rcases hj4 with h4 | h4
          · omega
          · subst h4
            exact ⟨f, by omega, hj3⟩
      · rintro ⟨a, ha, hsome⟩
        by_cases haf : a = f
        · subst haf
          exact Or.inr ⟨i, by omega, by omega, hsome, Or.inr rfl⟩
        · exact Or.inl ⟨a, by omega, hsome⟩
    unfold outerPass
    rw [ih (f + 1) _ _ _ (by omega)
      (by rw [innerPass_merged_length]; exact hm) hfi']
    rw [List.range'_succ, List.filter_cons]
    cases hma : mergesAny L f with
    | true =>
      rw [hflag_eq, hma]
      simp
    | false =>
      rw [hflag_eq, hma]
      simp

theorem passPrimes_eq (L : List Implicant) :
    passPrimes L = ((List.range L.length).filter (fun i => !(mergesAny L i))).map
      (fun i => L.getD i default) := by
  unfold passPrimes passResult
  rw [outerPass_primes_char L L.length 0 _ _ _ (by omega) (by simp)
    (fun i _ hi => by
      rw [getD_replicate_false]
      simp)]
  rw [List.range_eq_range']
  simp

theorem primeLoop_succ (fuel : Nat) (impl primes : List Implicant) :
    primeLoop (fuel + 1) impl primes =
      if (passNext impl).isEmpty then some (primes ++ passPrimes impl)
      else primeLoop fuel (passNext impl) (primes ++ passPrimes impl) := by
  have h : primeLoop (fuel + 1) impl primes =
      (let r := outerPass impl impl.length 0 (List.replicate impl.length false) [] primes
       if r.2.1.isEmpty then some r.2.2 else primeLoop fuel r.2.1 r.2.2) := rfl
  rw [h, outerPass_primes_acc]
  rfl

/-! ### Don't-care counting and termination of the merge loop -/

theorem dcCount_set_dc {l : List Output} {d : Nat} (h : d < l.length)
    (hne : l.getD d Output.DontCare ≠ Output.DontCare) :
    dcCount (l.set d Output.DontCare) = dcCount l + 1 := by
  induction l generalizing d with
  | nil => simp at h
  | cons a as ih =>
    cases d with
    | zero =>
      have ha : a ≠ Output.DontCare := hne
      simp [dcCount, List.count_cons, ha]
    | succ d =>
      have := ih (Nat.lt_of_succ_lt_succ h) hne
      simp only [List.set, dcCount, List.count_cons] at this ⊢
      omega

theorem dcCount_set_undc {l : List Output} {d : Nat} {x : Output} (h : d < l.length)
    (hdc : l.getD d Output.DontCare = Output.DontCare) (hx : x ≠ Output.DontCare) :
    dcCount (l.set d x) + 1 = dcCount l := by
  induction l generalizing d with
  | nil => simp at h
  | cons a as ih =>
    cases d with
    | zero =>
      have ha : a = Output.DontCare := hdc
      simp [dcCount, List.count_cons, ha, hx]
    | succ d =>
      have := ih (Nat.lt_of_succ_lt_succ h) hdc
      simp only [List.set, dcCount, List.count_cons] at this ⊢
      omega

theorem dcCount_set_keep {l : List Output} {d : Nat} {x : Output}
    (hdc : l.getD d Output.DontCare ≠ Output.DontCare) (hx : x ≠ Output.DontCare) :
    dcCount (l.set d x) = dcCount l := by
  induction l generalizing d with
  | nil => rfl
  | cons a as ih =>
    cases d with
    | zero =>
      have ha : a ≠ Output.DontCare := hdc
      simp [dcCount, List.count_cons, ha, hx]
    | succ d =>
      have := ih hdc
      simp only [List.set, dcCount, List.count_cons] at this ⊢
      omega

theorem dcCount_lt_length {l : List Output} {d : Nat} (h : d < l.length)
    (hne : l.getD d Output.DontCare ≠ Output.DontCare) : dcCount l < l.length := by
  rcases Nat.lt_or_ge (dcCount l) l.length with hlt | hge
  · exact hlt
  · have heq : l.count Output.DontCare = l.length :=
      Nat.le_antisymm (List.count_le_length _ _) hge
    have := (List.count_eq_length.mp heq) _ (getD_mem l d Output.DontCare h)
    exact absurd this.symm hne

theorem eq_replicate_of_dcCount {l : List Output} (h : dcCount l = l.length) :
    l = List.replicate l.length Output.DontCare := by
  have hall := List.count_eq_length.mp h
  exact List.eq_replicate_iff.mpr ⟨rfl, fun b hb => ((hall b hb)).symm⟩

/-- A successful merge keeps the length, has exactly one more don't-care
than its left parent, and that parent has a non-don't-care coordinate. -/
theorem Implicant.try_merge_dc {a b c : Implicant} (h : a.try_merge b = some c) :
    c.values.length = a.values.length ∧ dcCount c.values = dcCount a.values + 1 ∧
      dcCount a.values < a.values.length := by
  obtain ⟨d, hd, hlen, hcomp, hagree, hv, hc⟩ := Implicant.try_merge_some h
  have hne : a.values.getD d Output.DontCare ≠ Output.DontCare := by
    rcases hcomp with ⟨h1, _⟩ | ⟨h1, _⟩ <;> rw [h1] <;> decide
  refine ⟨by rw [hv]; simp, ?_, dcCount_lt_length hd hne⟩
  rw [hv]
  exact dcCount_set_dc hd hne

theorem passNext_mem {L : List Implicant} {x : Implicant} (h : x ∈ passNext L) :
    ∃ i j, i < L.length ∧ j < L.length ∧ mergeAt L i j = some x := by
  unfold passNext passResult at h
  rcases outerPass_next_mem L _ _ _ _ _ _ h with h1 | h1
  · simp at h1
  · exact h1

theorem passNext_rep {L : List Implicant} {i j : Nat} {m : Implicant}
    (hi : i < L.length) (hj : j < L.length) (hm : mergeAt L i j = some m) :
    ∃ x ∈ passNext L, x.values = m.values := by
  by_cases hij : i ≤ j
  · exact outerPass_next_rep L L.length 0 _ _ _ i j m (by omega) (Nat.zero_le _) hij hj hm
  · rw [mergeAt] at hm
    obtain ⟨m', hm', hmv, _⟩ := Implicant.try_merge_symm hm
    obtain ⟨x, hx, hxv⟩ := outerPass_next_rep L L.length 0
      (List.replicate L.length false) [] [] j i m' (by omega) (Nat.zero_le _)
      (by omega) hi (by rw [mergeAt]; exact hm')
    exact ⟨x, hx, by rw [hxv, hmv]⟩

theorem passNext_nodup (L : List Implicant) :
    (passNext L).Pairwise (fun p q => p.values ≠ q.values) :=
  outerPass_next_nodup L _ _ _ _ _ List.Pairwise.nil

theorem passNext_eq_nil_iff (L : List Implicant) :
    passNext L = [] ↔ ∀ i j, i < L.length → j < L.length → mergeAt L i j = none := by
  constructor
  · intro h i j hi hj
    cases hm : mergeAt L i j with
    | none => rfl
    | some m =>
      obtain ⟨x, hx, _⟩ := passNext_rep hi hj hm
      rw [h] at hx
      exact absurd hx (List.not_mem_nil x)
  · intro h
    cases hp : passNext L with
    | nil => rfl
    | cons x xs =>
      obtain ⟨i, j, hi, hj, hm⟩ := passNext_mem (by rw [hp]; exact List.mem_cons_self x xs)
      rw [h i j hi hj] at hm
      exact absurd hm (by simp)

theorem from_table_idx_length (N idx : Nat) (b : Bool) :
    (Implicant.from_table_idx N idx b).values.length = N := by
  simp [Implicant.from_table_idx]

theorem from_table_idx_dcCount (N idx : Nat) (b : Bool) :
    dcCount (Implicant.from_table_idx N idx b).values = 0 := by
  rw [dcCount, List.count_eq_zero]
  intro h
  rw [Implicant.from_table_idx] at h
  simp only [List.mem_map] at h
  obtain ⟨var, _, hvar⟩ := h
  by_cases hb : (idx >>> var) % 2 = 1 <;> simp [hb] at hvar

theorem seeds_hom {N : Nat} (t : Table N) :
    ∀ x ∈ t.seeds, x.values.length = N ∧ dcCount x.values = 0 := by
  intro x hx
  rw [Table.seeds] at hx
  simp only [List.mem_map, List.mem_filter] at hx
  obtain ⟨idx, _, hidx⟩ := hx
  rw [← hidx]
  exact ⟨from_table_idx_length _ _ _, from_table_idx_dcCount _ _ _⟩

theorem primeLoop_total (N : Nat) :
    ∀ (fuel : Nat) (impl primes : List Implicant) (g : Nat),
      (∀ x ∈ impl, x.values.length = N ∧ dcCount x.values = g) →
      (impl = [] → 1 ≤ fuel) → N + 1 ≤ g + fuel →
      ∃ out, primeLoop fuel impl primes = some out := by
  intro fuel
  induction fuel with
  | zero =>
    intro impl primes g hhom hemp hbound
    cases impl with
    | nil => exact absurd (hemp rfl) (by omega)
    | cons x xs =>
      obtain ⟨hxlen, hxdc⟩ := hhom x (List.mem_cons_self x xs)
      have hle : dcCount x.values ≤ x.values.length := List.count_le_length _ _
      omega
  | succ fuel ih =>
    intro impl primes g hhom hemp hbound
    rw [primeLoop_succ]
    by_cases hne : (passNext impl).isEmpty
    · exact ⟨_, by rw [if_pos hne]⟩
    · rw [if_neg hne]
      have hnil : passNext impl ≠ [] := by
        intro hc
        rw [hc] at hne
        exact hne rfl
      have hhom' : ∀ x ∈ passNext impl, x.values.length = N ∧ dcCount x.values = g + 1 := by
        intro x hx
        obtain ⟨i, j, hi, hj, hm⟩ := passNext_mem hx
        obtain ⟨hplen, hpdc⟩ := hhom _ (getD_mem impl i default hi)
        rw [mergeAt] at hm
        obtain ⟨hclen, hcdc, _⟩ := Implicant.try_merge_dc hm
        exact ⟨by rw [hclen, hplen], by rw [hcdc, hpdc]⟩
      have hglt : g < N := by
        obtain ⟨x, hx⟩ := List.exists_mem_of_ne_nil _ hnil
        obtain ⟨i, j, hi, hj, hm⟩ := passNext_mem hx
        obtain ⟨hplen, hpdc⟩ := hhom _ (getD_mem impl i default hi)
        rw [mergeAt] at hm
        obtain ⟨_, _, hlt⟩ := Implicant.try_merge_dc hm
        omega
      exact ih (passNext impl) _ (g + 1) hhom'
        (fun hc => absurd hc hnil) (by omega)

/-- The fuel `N + 2` of `Table.prime_implicants` always suffices: the merge
loop terminates on every table. -/
theorem prime_implicants_total {N : Nat} (t : Table N) :
    ∃ primes, t.prime_implicants = some primes := by
  rw [Table.prime_implicants]
  exact primeLoop_total N (N + 2) t.seeds [] 0 (seeds_hom t)
    (fun _ => by omega) (by omega)

/-! ### Cubes: the set of table indices consistent with a value vector -/

theorem cubeMatches_iff {v : List Output} {idx : Nat} :
    cubeMatches v idx = true ↔ ∀ var, var < v.length →
      (v.getD var Output.DontCare = Output.One → (idx >>> var) % 2 = 1) ∧
      (v.getD var Output.DontCare = Output.Zero → (idx >>> var) % 2 = 0) := by
  rw [cubeMatches, List.all_eq_true]
  constructor
  · intro h var hvar
    have h2 := h var (List.mem_range.mpr hvar)
    constructor
    · intro h1
      rw [h1] at h2
      exact of_decide_eq_true h2
    · intro h1
      rw [h1] at h2
      exact of_decide_eq_true h2
  · intro h var hmem
    have hvar := List.mem_range.mp hmem
    show (match v.getD var Output.DontCare with
      | Output.One => decide ((idx >>> var) % 2 = 1)
      | Output.Zero => decide ((idx >>> var) % 2 = 0)
      | Output.DontCare => true) = true
    cases hv : v.getD var Output.DontCare with
    | One => exact decide_eq_true ((h var hvar).1 hv)
    | Zero => exact decide_eq_true ((h var hvar).2 hv)
    | DontCare => rfl

theorem cubeMatches_merge {a b c : Implicant} (h : a.try_merge b = some c) (idx : Nat) :
    cubeMatches c.values idx = (cubeMatches a.values idx || cubeMatches b.values idx) := by
  obtain ⟨d, hd, hlen, hcomp, hagree, hv, _⟩ := Implicant.try_merge_some h
  have hclen : c.values.length = a.values.length := by rw [hv]; simp
  have hcd : c.values.getD d Output.DontCare = Output.DontCare := by
    rw [hv]; exact getD_set_self _ _ _ _ hd
  have hcne : ∀ i, i ≠ d → c.values.getD i Output.DontCare = a.values.getD i Output.DontCare := by
    intro i hi
    rw [hv]
    exact getD_set_ne _ _ _ _ _ (fun hc => hi hc.symm)
  rw [Bool.eq_iff_iff, Bool.or_eq_true]
  constructor
  · intro hc
    have hcm := cubeMatches_iff.mp hc
    rcases Nat.mod_two_eq_zero_or_one (idx >>> d) with hbit | hbit
    · -- the bit at `d` is 0: `idx` lies in the parent whose coordinate `d` is Zero
      rcases hcomp with ⟨ha1, hb1⟩ | ⟨ha1, hb1⟩
      · refine Or.inl (cubeMatches_iff.mpr (fun var hvar => ?_))
        by_cases hvd : var = d
        · subst hvd
          exact ⟨fun h1 => absurd h1 (by rw [ha1]; decide), fun _ => hbit⟩
        · have := (hcm var (by omega)).1
          have h2 := (hcm var (by omega)).2
          rw [hcne var hvd] at this h2
          exact ⟨this, h2⟩
      · refine Or.inr (cubeMatches_iff.mpr (fun var hvar => ?_))
        by_cases hvd : var = d
        · subst hvd
          exact ⟨fun h1 => absurd h1 (by rw [hb1]; decide), fun _ => hbit⟩
        · have h1 := (hcm var (by omega)).1
          have h2 := (hcm var (by omega)).2
          rw [hcne var hvd, hagree var (by omega) hvd] at h1 h2
          exact ⟨h1, h2⟩
    · -- the bit at `d` is 1
      rcases hcomp with ⟨ha1, hb1⟩ | ⟨ha1, hb1⟩
      · refine Or.inr (cubeMatches_iff.mpr (fun var hvar => ?_))
        by_cases hvd : var = d
        · subst hvd
          exact ⟨fun _ => hbit, fun h1 => absurd h1 (by rw [hb1]; decide)⟩
        · have h1 := (hcm var (by omega)).1
          have h2 := (hcm var (by omega)).2
          rw [hcne var hvd, hagree var (by omega) hvd] at h1 h2
          exact ⟨h1, h2⟩
      · refine Or.inl (cubeMatches_iff.mpr (fun var hvar => ?_))
        by_cases hvd : var = d
        · subst hvd
          exact ⟨fun _ => hbit, fun h1 => absurd h1 (by rw [ha1]; decide)⟩
        · have h1 := (hcm var (by omega)).1
          have h2 := (hcm var (by omega)).2
          rw [hcne var hvd] at h1 h2
          exact ⟨h1, h2⟩
  · intro hab
    refine cubeMatches_iff.mpr (fun var hvar => ?_)
    by_cases hvd : var = d
    · subst hvd
      exact ⟨fun h1 => absurd h1 (by rw [hcd]; decide),
        fun h1 => absurd h1 (by rw [hcd]; decide)⟩
    · rcases hab with ha | hb
      · have h1 := (cubeMatches_iff.mp ha var (by omega)).1
        have h2 := (cubeMatches_iff.mp ha var (by omega)).2
        rw [← hcne var hvd] at h1 h2
        exact ⟨h1, h2⟩
      · have h1 := (cubeMatches_iff.mp hb var (by omega)).1
        have h2 := (cubeMatches_iff.mp hb var (by omega)).2
        rw [← hagree var (by omega) hvd, ← hcne var hvd] at h1 h2
        exact ⟨h1, h2⟩

/-- Merging two implicants whose constituents are exactly the `S`-elements of
their cubes yields an implicant with the same property: the merged cube is
the union of the parents' cubes. -/
theorem merge_constituents_filter {S : Finset Nat} {a b c : Implicant}
    (ha : a.constituents = S.filter (fun m => cubeMatches a.values m = true))
    (hb : b.constituents = S.filter (fun m => cubeMatches b.values m = true))
    (h : a.try_merge b = some c) :
    c.constituents = S.filter (fun m => cubeMatches c.values m = true) := by
  obtain ⟨d, hd, hlen, hcomp, hagree, hv, hc⟩ := Implicant.try_merge_some h
  rw [hc, ha, hb, ← Finset.filter_or]
  refine Finset.filter_congr (fun m _ => ?_)
  rw [cubeMatches_merge h m]
  simp

theorem getD_map_range {α : Type} (N var : Nat) (f : Nat → α) (d : α) (h : var < N) :
    ((List.range N).map f).getD var d = f var := by
  rw [List.getD_eq_getElem _ _ (by simp [h])]
  simp

theorem eq_of_low_bits {N : Nat} : ∀ (j idx : Nat), j < 2 ^ N → idx < 2 ^ N →
    (∀ var, var < N → (j >>> var) % 2 = (idx >>> var) % 2) → j = idx := by
  induction N with
  | zero =>
    intro j idx hj hidx _
    interval_cases j
    interval_cases idx
    rfl
  | succ N ih =>
    intro j idx hj hidx hbits
    have h0 : j % 2 = idx % 2 := by
      have := hbits 0 (Nat.succ_pos _)
      simpa [Nat.shiftRight_zero] using this
    have hdivlt : j / 2 < 2 ^ N := by
      rw [Nat.div_lt_iff_lt_mul (by omega)]
      calc j < 2 ^ (N + 1) := hj
      _ = 2 ^ N * 2 := by rw [Nat.pow_succ]
    have hdivlt' : idx / 2 < 2 ^ N := by
      rw [Nat.div_lt_iff_lt_mul (by omega)]
      calc idx < 2 ^ (N + 1) := hidx
      _ = 2 ^ N * 2 := by rw [Nat.pow_succ]
    have hshift : ∀ (n var : Nat), (n / 2) >>> var = n >>> (var + 1) := by
      intro n var
      rw [Nat.shiftRight_eq_div_pow, Nat.shiftRight_eq_div_pow,
        Nat.div_div_eq_div_mul, Nat.pow_succ, Nat.mul_comm]
    have hdiv : j / 2 = idx / 2 := by
      refine ih (j / 2) (idx / 2) hdivlt hdivlt' (fun var hvar => ?_)
      rw [hshift j var, hshift idx var]
      exact hbits (var + 1) (by omega)
    have hj2 := Nat.div_add_mod j 2
    have hidx2 := Nat.div_add_mod idx 2
    omega

theorem cubeMatches_from_table_idx {N idx j : Nat} (b : Bool)
    (hidx : idx < 2 ^ N) (hj : j < 2 ^ N) :
    (cubeMatches (Implicant.from_table_idx N idx b).values j = true) ↔ j = idx := by
  have hlen : (Implicant.from_table_idx N idx b).values.length = N :=
    from_table_idx_length N idx b
  constructor
  · intro h
    refine eq_of_low_bits j idx hj hidx (fun var hvar => ?_)
    have hcm := cubeMatches_iff.mp h var (by omega)
    have hgetD : (Implicant.from_table_idx N idx b).values.getD var Output.DontCare =
        if (idx >>> var) % 2 = 1 then Output.One else Output.Zero := by
      rw [Implicant.from_table_idx]
      exact getD_map_range N var _ _ hvar
    by_cases hbit : (idx >>> var) % 2 = 1
    · rw [if_pos hbit] at hgetD
      rw [hcm.1 hgetD, hbit]
    · rw [if_neg hbit] at hgetD
      have hb0 : (idx >>> var) % 2 = 0 := by omega
      rw [hcm.2 hgetD, hb0]
  · intro h
    subst h
    refine cubeMatches_iff.mpr (fun var hvar => ?_)
    have hgetD : (Implicant.from_table_idx N j b).values.getD var Output.DontCare =
        if (j >>> var) % 2 = 1 then Output.One else Output.Zero := by
      rw [Implicant.from_table_idx]
      exact getD_map_range N var _ _ (by omega)
    by_cases hbit : (j >>> var) % 2 = 1
    · rw [if_pos hbit] at hgetD
      exact ⟨fun _ => hbit, fun h1 => absurd (hgetD ▸ h1) (by decide)⟩
    · rw [if_neg hbit] at hgetD
      exact ⟨fun h1 => absurd (hgetD ▸ h1) (by decide), fun _ => by omega⟩

/-! ### The constituents invariant: constituents = minterms of the cube -/

/-- Every implicant of the list has an `N`-length value vector and
constituents equal to exactly the table minterms lying in its cube. -/
def FI {N : Nat} (t : Table N) (L : List Implicant) : Prop :=
  ∀ x ∈ L, x.values.length = N ∧
    x.constituents = t.minterms.filter (fun m => cubeMatches x.values m = true)

theorem seeds_FI {N : Nat} (t : Table N) : FI t t.seeds := by
  intro x hx
  rw [Table.seeds] at hx
  simp only [List.mem_map, List.mem_filter, List.mem_range] at hx
  obtain ⟨idx, ⟨hidx, hne⟩, hxeq⟩ := hx
  subst hxeq
  refine ⟨from_table_idx_length _ _ _, ?_⟩
  have hfilter : t.minterms.filter
      (fun m => cubeMatches (Implicant.from_table_idx N idx
        (decide (t.outputs.getD idx Output.Zero = Output.One))).values m = true) =
      t.minterms.filter (fun m => m = idx) := by
    refine Finset.filter_congr (fun m hm => ?_)
    have hmlt : m < 2 ^ N := by
      rw [Table.minterms] at hm
      exact Finset.mem_range.mp (Finset.mem_filter.mp hm).1
    rw [cubeMatches_from_table_idx _ hidx hmlt]
  rw [hfilter, Finset.filter_eq']
  rw [Implicant.from_table_idx]
  by_cases hone : t.outputs.getD idx Output.Zero = Output.One
  · have hmem : idx ∈ t.minterms := by
      rw [Table.minterms]
      exact Finset.mem_filter.mpr ⟨Finset.mem_range.mpr hidx, hone⟩
    rw [if_pos hmem]
    have hb : decide (t.outputs.getD idx Output.Zero = Output.One) = true :=
      decide_eq_true hone
    rw [hb]
    rfl
  · have hmem : idx ∉ t.minterms := by
      rw [Table.minterms]
      intro hc
      exact hone (Finset.mem_filter.mp hc).2
    rw [if_neg hmem]
    have hb : decide (t.outputs.getD idx Output.Zero = Output.One) = false :=
      decide_eq_false hone
    rw [hb]
    rfl

theorem FI_passNext {N : Nat} {t : Table N} {L : List Implicant} (h : FI t L) :
    FI t (passNext L) := by
  intro x hx
  obtain ⟨i, j, hi, hj, hm⟩ := passNext_mem hx
  obtain ⟨hilen, hic⟩ := h _ (getD_mem L i default hi)
  obtain ⟨hjlen, hjc⟩ := h _ (getD_mem L j default hj)
  rw [mergeAt] at hm
  obtain ⟨hclen, _, _⟩ := Implicant.try_merge_dc hm
  exact ⟨by rw [hclen, hilen], merge_constituents_filter hic hjc hm⟩

/-- Constituents are always a subset of the minterm set. -/
theorem FI_subset_minterms {N : Nat} {t : Table N} {L : List Implicant}
    (h : FI t L) : ∀ x ∈ L, x.constituents ⊆ t.minterms := by
  intro x hx
  rw [(h x hx).2]
  exact Finset.filter_subset _ _

/-! ### Membership in the pushed primes of a pass -/

theorem mem_passPrimes {L : List Implicant} {p : Implicant} :
    p ∈ passPrimes L ↔
      ∃ i, i < L.length ∧ mergesAny L i = false ∧ p = L.getD i default := by
  rw [passPrimes_eq]
  simp only [List.mem_map, List.mem_filter, List.mem_range]
  constructor
  · rintro ⟨i, ⟨hi, hmi⟩, hp⟩
    exact ⟨i, hi, by simpa using hmi, hp.symm⟩
  · rintro ⟨i, hi, hmi, hp⟩
    exact ⟨i, ⟨hi, by simp [hmi]⟩, hp.symm⟩

theorem mergesAny_eq_false_iff {L : List Implicant} {i : Nat} :
    mergesAny L i = false ↔ ∀ j, j < L.length → mergeAt L i j = none := by
  unfold mergesAny
  constructor
  · intro h j hj
    cases hm : mergeAt L i j with
    | none => rfl
    | some m =>
      have : (List.range L.length).any (fun j => (mergeAt L i j).isSome) = true :=
        List.any_eq_true.mpr ⟨j, List.mem_range.mpr hj, by rw [hm]; rfl⟩
      rw [this] at h
      cases h
  · intro h
    cases hany : (List.range L.length).any (fun j => (mergeAt L i j).isSome) with
    | false => rfl
    | true =>
      obtain ⟨j, hjmem, hjsome⟩ := List.any_eq_true.mp hany
      rw [h j (List.mem_range.mp hjmem)] at hjsome
      cases hjsome

theorem mergesAny_eq_true_iff {L : List Implicant} {i : Nat} :
    mergesAny L i = true ↔ ∃ j, j < L.length ∧ (mergeAt L i j).isSome := by
  unfold mergesAny
  rw [List.any_eq_true]
  constructor
  · rintro ⟨j, hjmem, hjsome⟩
    exact ⟨j, List.mem_range.mp hjmem, hjsome⟩
  · rintro ⟨j, hj, hjsome⟩
    exact ⟨j, List.mem_range.mpr hj, hjsome⟩

/-! ### Coverage: every minterm reaches a prime implicant -/

/-- Some implicant of the list counts `m` among its constituents. -/
def coveredBy (L : List Implicant) (m : Nat) : Prop := ∃ x ∈ L, m ∈ x.constituents

theorem seeds_cover {N : Nat} (t : Table N) {m : Nat} (hm : m ∈ t.minterms) :
    coveredBy t.seeds m := by
  rw [Table.minterms] at hm
  obtain ⟨hmR, hone⟩ := Finset.mem_filter.mp hm
  have hmlt := Finset.mem_range.mp hmR
  refine ⟨Implicant.from_table_idx N m (decide (t.outputs.getD m Output.Zero = Output.One)),
    ?_, ?_⟩
  · rw [Table.seeds]
    refine List.mem_map.mpr ⟨m, List.mem_filter.mpr ⟨List.mem_range.mpr hmlt, ?_⟩, rfl⟩
    exact decide_eq_true (by rw [hone]; decide)
  · rw [Implicant.from_table_idx]
    have hb : decide (t.outputs.getD m Output.Zero = Output.One) = true :=
      decide_eq_true hone
    rw [hb]
    exact Finset.mem_singleton_self m

theorem coverage_step {N : Nat} {t : Table N} {impl primes : List Implicant}
    (hfi : FI t impl) {m : Nat} (hm : m ∈ t.minterms)
    (hcov : coveredBy primes m ∨ coveredBy impl m) :
    coveredBy (primes ++ passPrimes impl) m ∨ coveredBy (passNext impl) m := by
  rcases hcov with ⟨x, hx, hmx⟩ | ⟨x, hx, hmx⟩
  · exact Or.inl ⟨x, List.mem_append_left _ hx, hmx⟩
  · obtain ⟨i, hi, hgi⟩ := mem_getD default hx
    cases hma : mergesAny impl i with
    | false =>
      refine Or.inl ⟨x, List.mem_append_right _ ?_, hmx⟩
      exact mem_passPrimes.mpr ⟨i, hi, hma, hgi.symm⟩
    | true =>
      obtain ⟨j, hj, hjsome⟩ := mergesAny_eq_true_iff.mp hma
      obtain ⟨k, hk⟩ := Option.isSome_iff_exists.mp hjsome
      obtain ⟨x', hx', hxv⟩ := passNext_rep hi hj hk
      refine Or.inr ⟨x', hx', ?_⟩
      -- `m` is a constituent of the merge, and the kept representative has the
      -- same value vector, hence (by the invariant) the same constituents
      obtain ⟨hilen, hic⟩ := hfi _ (getD_mem impl i default hi)
      obtain ⟨hjlen, hjc⟩ := hfi _ (getD_mem impl j default hj)
      rw [mergeAt] at hk
      have hkc := merge_constituents_filter hic hjc hk
      obtain ⟨_, _, _, _, _, _, hkunion⟩ := Implicant.try_merge_some hk
      have hmk : m ∈ k.constituents := by
        rw [hkunion]
        rw [← hgi] at hmx
        exact Finset.mem_union_left _ hmx
      have hfin := FI_passNext hfi
      rw [(hfin x' hx').2, hxv, ← hkc]
      exact hmk

theorem primeLoop_coverage {N : Nat} (t : Table N) :
    ∀ (fuel : Nat) (impl primes out : List Implicant),
      primeLoop fuel impl primes = some out →
      FI t impl →
      (∀ m ∈ t.minterms, coveredBy primes m ∨ coveredBy impl m) →
      ∀ m ∈ t.minterms, coveredBy out m := by
  intro fuel
  induction fuel with
  | zero =>
    intro impl primes out h
    exact absurd h (by rw [primeLoop]; simp)
  | succ fuel ih =>
    intro impl primes out h hfi hcov m hm
    rw [primeLoop_succ] at h
    have hstep := coverage_step hfi hm (hcov m hm)
    by_cases hne : (passNext impl).isEmpty
    · rw [if_pos hne] at h
      have hout : primes ++ passPrimes impl = out := Option.some.inj h
      rcases hstep with hc | hc
      · rw [hout] at hc
        exact hc
      · obtain ⟨x, hx, _⟩ := hc
        rw [List.isEmpty_iff.mp hne] at hx
        exact absurd hx (List.not_mem_nil x)
    · rw [if_neg hne] at h
      refine ih _ _ _ h (FI_passNext hfi) (fun m' hm' => ?_) m hm
      exact coverage_step hfi hm' (hcov m' hm')

/-- Every minterm is a constituent of at least one returned prime implicant. -/
theorem prime_implicants_cover {N : Nat} (t : Table N) {primes : List Implicant}
    (h : t.prime_implicants = some primes) :
    ∀ m ∈ t.minterms, ∃ p ∈ primes, m ∈ p.constituents := by
  rw [Table.prime_implicants] at h
  exact primeLoop_coverage t (N + 2) t.seeds [] primes h (seeds_FI t)
    (fun m hm => Or.inr (seeds_cover t hm))

/-! ### The invariant carries to the returned primes -/

theorem FI_passPrimes {N : Nat} {t : Table N} {L : List Implicant} (h : FI t L) :
    FI t (passPrimes L) := by
  intro x hx
  obtain ⟨i, hi, _, hp⟩ := mem_passPrimes.mp hx
  rw [hp]
  exact h _ (getD_mem L i default hi)

theorem FI_append {N : Nat} {t : Table N} {L₁ L₂ : List Implicant}
    (h₁ : FI t L₁) (h₂ : FI t L₂) : FI t (L₁ ++ L₂) := by
  intro x hx
  rcases List.mem_append.mp hx with h | h
  · exact h₁ x h
  · exact h₂ x h

theorem primeLoop_FI {N : Nat} (t : Table N) :
    ∀ (fuel : Nat) (impl primes out : List Implicant),
      primeLoop fuel impl primes = some out → FI t impl → FI t primes → FI t out := by
  intro fuel
  induction fuel with
  | zero =>
    intro impl primes out h
    exact absurd h (by rw [primeLoop]; simp)
  | succ fuel ih =>
    intro impl primes out h hfi hfp
    rw [primeLoop_succ] at h
    by_cases hne : (passNext impl).isEmpty
    · rw [if_pos hne] at h
      rw [← Option.some.inj h]
      exact FI_append hfp (FI_passPrimes hfi)
    · rw [if_neg hne] at h
      exact ih _ _ _ h (FI_passNext hfi) (FI_append hfp (FI_passPrimes hfi))

/-- The invariant holds of the returned prime implicant list. -/
theorem prime_implicants_FI {N : Nat} (t : Table N) {primes : List Implicant}
    (h : t.prime_implicants = some primes) : FI t primes := by
  rw [Table.prime_implicants] at h
  exact primeLoop_FI t (N + 2) t.seeds [] primes h (seeds_FI t) (fun x hx => absurd hx (by simp))

/-- The invariant holds of every generation. -/
theorem generation_FI {N : Nat} (t : Table N) (g : Nat) : FI t (t.generation g) := by
  induction g with
  | zero => exact seeds_FI t
  | succ g ih => exact FI_passNext ih

/-! ### Which generations push which primes -/

/-- `g`-fold iteration of a pass's next-generation map. -/
def iterNext : Nat → List Implicant → List Implicant
  | 0, L => L
  | Nat.succ g, L => passNext (iterNext g L)

theorem iterNext_passNext (g : Nat) (L : List Implicant) :
    iterNext g (passNext L) = passNext (iterNext g L) := by
  induction g with
  | zero => rfl
  | succ g ih => rw [iterNext, ih, iterNext]

theorem generation_eq_iterNext {N : Nat} (t : Table N) (g : Nat) :
    t.generation g = iterNext g t.seeds := by
  induction g with
  | zero => rfl
  | succ g ih => rw [Table.generation, iterNext, ih]

theorem passNext_nil : passNext [] = [] := rfl

theorem passPrimes_nil : passPrimes [] = [] := rfl

theorem iterNext_nil (g : Nat) : iterNext g [] = [] := by
  induction g with
  | zero => rfl
  | succ g ih => rw [iterNext, ih, passNext_nil]

theorem primeLoop_out_mono :
    ∀ (fuel : Nat) (impl primes out : List Implicant),
      primeLoop fuel impl primes = some out → primes ⊆ out := by
  intro fuel
  induction fuel with
  | zero =>
    intro impl primes out h
    exact absurd h (by rw [primeLoop]; simp)
  | succ fuel ih =>
    intro impl primes out h
    rw [primeLoop_succ] at h
    by_cases hne : (passNext impl).isEmpty
    · rw [if_pos hne] at h
      rw [← Option.some.inj h]
      exact List.subset_append_left _ _
    · rw [if_neg hne] at h
      exact fun x hx => ih _ _ _ h (List.mem_append_left _ hx)

theorem primeLoop_out_mem :
    ∀ (fuel : Nat) (impl primes out : List Implicant),
      primeLoop fuel impl primes = some out → ∀ p ∈ out,
        p ∈ primes ∨ ∃ g, p ∈ passPrimes (iterNext g impl) := by
  intro fuel
  induction fuel with
  | zero =>
    intro impl primes out h
    exact absurd h (by rw [primeLoop]; simp)
  | succ fuel ih =>
    intro impl primes out h p hp
    rw [primeLoop_succ] at h
    by_cases hne : (passNext impl).isEmpty
    · rw [if_pos hne] at h
      rw [← Option.some.inj h] at hp
      rcases List.mem_append.mp hp with h1 | h1
      · exact Or.inl h1
      · exact Or.inr ⟨0, h1⟩
    · rw [if_neg hne] at h
      rcases ih _ _ _ h p hp with h1 | ⟨g, hg⟩
      · rcases List.mem_append.mp h1 with h2 | h2
        · exact Or.inl h2
        · exact Or.inr ⟨0, h2⟩
      · rw [iterNext_passNext] at hg
        exact Or.inr ⟨g + 1, hg⟩

theorem primeLoop_pushed_mem :
    ∀ (fuel : Nat) (impl primes out : List Implicant),
      primeLoop fuel impl primes = some out →
      ∀ g p, p ∈ passPrimes (iterNext g impl) → p ∈ out := by
  intro fuel
  induction fuel with
  | zero =>
    intro impl primes out h
    exact absurd h (by rw [primeLoop]; simp)
  | succ fuel ih =>
    intro impl primes out h g p hp
    rw [primeLoop_succ] at h
    by_cases hne : (passNext impl).isEmpty
    · rw [if_pos hne] at h
      rw [← Option.some.inj h]
      cases g with
      | zero => exact List.mem_append_right _ hp
      | succ g =>
        rw [iterNext] at hp
        rw [← iterNext_passNext, List.isEmpty_iff.mp hne, iterNext_nil,
          passPrimes_nil] at hp
        exact absurd hp (List.not_mem_nil p)
    · rw [if_neg hne] at h
      cases g with
      | zero =>
        exact primeLoop_out_mono _ _ _ _ h (List.mem_append_right _ hp)
      | succ g =>
        rw [iterNext, ← iterNext_passNext] at hp
        exact ih _ _ _ h g p hp

/-- The returned primes are exactly the implicants some generation pushes. -/
theorem prime_implicants_mem_iff {N : Nat} (t : Table N) {primes : List Implicant}
    (h : t.prime_implicants = some primes) (p : Implicant) :
    p ∈ primes ↔ ∃ g, p ∈ passPrimes (t.generation g) := by
  rw [Table.prime_implicants] at h
  constructor
  · intro hp
    rcases primeLoop_out_mem _ _ _ _ h p hp with h1 | ⟨g, hg⟩
    · exact absurd h1 (List.not_mem_nil p)
    · exact ⟨g, by rw [generation_eq_iterNext]; exact hg⟩
  · rintro ⟨g, hg⟩
    rw [generation_eq_iterNext] at hg
    exact primeLoop_pushed_mem _ _ _ _ h g p hg

/-! ### Properties of the modelled exact cover -/

theorem pickMinLen_cons_none {c : List Nat} {cs : List (List Nat)}
    (h : pickMinLen cs = none) : pickMinLen (c :: cs) = some c := by
  rw [pickMinLen, h]

theorem pickMinLen_cons_some {c b : List Nat} {cs : List (List Nat)}
    (h : pickMinLen cs = some b) :
    pickMinLen (c :: cs) = if c.length ≤ b.length then some c else some b := by
  rw [pickMinLen, h]

theorem pickMinLen_eq_none_iff : ∀ (l : List (List Nat)),
    pickMinLen l = none ↔ l = [] := by
  intro l
  cases l with
  | nil => simp [pickMinLen]
  | cons c cs =>
    cases hcs : pickMinLen cs with
    | none =>
      rw [pickMinLen_cons_none hcs]
      simp
    | some b =>
      rw [pickMinLen_cons_some hcs]
      constructor
      · intro h
        by_cases hle : c.length ≤ b.length
        · rw [if_pos hle] at h; cases h
        · rw [if_neg hle] at h; cases h
      · intro h; cases h

theorem pickMinLen_mem : ∀ (l : List (List Nat)) (x : List Nat),
    pickMinLen l = some x → x ∈ l := by
  intro l
  induction l with
  | nil => intro x h; exact absurd h (by rw [pickMinLen]; simp)
  | cons c cs ih =>
    intro x h
    cases hcs : pickMinLen cs with
    | none =>
      rw [pickMinLen_cons_none hcs] at h
      exact List.mem_cons.mpr (Or.inl (Option.some.inj h).symm)
    | some b =>
      rw [pickMinLen_cons_some hcs] at h
      by_cases hle : c.length ≤ b.length
      · rw [if_pos hle] at h
        exact List.mem_cons.mpr (Or.inl (Option.some.inj h).symm)
      · rw [if_neg hle] at h
        exact List.mem_cons.mpr (Or.inr (by rw [← Option.some.inj h]; exact ih b hcs))

theorem pickMinLen_min : ∀ (l : List (List Nat)) (x : List Nat),
    pickMinLen l = some x → ∀ c ∈ l, x.length ≤ c.length := by
  intro l
  induction l with
  | nil => intro x h; exact absurd h (by rw [pickMinLen]; simp)
  | cons c cs ih =>
    intro x h e he
    cases hcs : pickMinLen cs with
    | none =>
      rw [pickMinLen_cons_none hcs] at h
      have hx : x = c := (Option.some.inj h).symm
      have hcs' : cs = [] := (pickMinLen_eq_none_iff cs).mp hcs
      subst hcs'
      rcases List.mem_cons.mp he with h1 | h1
      · rw [hx, h1]
      · exact absurd h1 (List.not_mem_nil e)
    | some b =>
      rw [pickMinLen_cons_some hcs] at h
      rcases List.mem_cons.mp he with h1 | h1
      · rw [h1]
        by_cases hle : c.length ≤ b.length
        · rw [if_pos hle] at h
          rw [← Option.some.inj h]
        · rw [if_neg hle] at h
          rw [← Option.some.inj h]
          omega
      · by_cases hle : c.length ≤ b.length
        · rw [if_pos hle] at h
          rw [← Option.some.inj h]
          exact Nat.le_trans hle (ih b hcs e h1)
        · rw [if_neg hle] at h
          rw [← Option.some.inj h]
          exact ih b hcs e h1

theorem pickMinLen_ne_none : ∀ (l : List (List Nat)) (c : List Nat),
    c ∈ l → ∃ x, pickMinLen l = some x := by
  intro l c hc
  cases hp : pickMinLen l with
  | none =>
    rw [pickMinLen_eq_none_iff l] at hp
    rw [hp] at hc
    exact absurd hc (List.not_mem_nil c)
  | some x => exact ⟨x, rfl⟩

theorem coversUniverse_iff {uni : Finset Nat} {sets : List (Finset Nat)}
    {choice : List Nat} :
    coversUniverse uni sets choice = true ↔
      ∀ m ∈ uni, ∃ i ∈ choice, m ∈ sets.getD i ∅ := by
  rw [coversUniverse, decide_eq_true_eq]

theorem cover_spec {uni : Finset Nat} {sets : List (Finset Nat)} {sel : List Nat}
    (h : cover uni sets = some sel) :
    sel.Sublist (List.range sets.length) ∧ coversUniverse uni sets sel = true ∧
      ∀ c, c.Sublist (List.range sets.length) → coversUniverse uni sets c = true →
        sel.length ≤ c.length := by
  unfold cover at h
  have hmem := pickMinLen_mem _ _ h
  rw [List.mem_filter] at hmem
  refine ⟨List.mem_sublists.mp hmem.1, hmem.2, fun c hc hcov => ?_⟩
  exact pickMinLen_min _ _ h c (List.mem_filter.mpr ⟨List.mem_sublists.mpr hc, hcov⟩)

theorem cover_some_of {uni : Finset Nat} {sets : List (Finset Nat)} {c : List Nat}
    (hc : c.Sublist (List.range sets.length))
    (hcov : coversUniverse uni sets c = true) : ∃ sel, cover uni sets = some sel := by
  unfold cover
  exact pickMinLen_ne_none _ c (List.mem_filter.mpr ⟨List.mem_sublists.mpr hc, hcov⟩)

theorem cover_empty_universe (sets : List (Finset Nat)) : cover ∅ sets = some [] := by
  obtain ⟨sel, hsel⟩ := @cover_some_of ∅ sets [] (List.nil_sublist _)
    (by rw [coversUniverse_iff]; simp)
  have hspec := cover_spec hsel
  have hlen : sel.length ≤ 0 := hspec.2.2 [] (List.nil_sublist _)
    (by rw [coversUniverse_iff]; simp)
  rw [hsel]
  have hnil : sel = [] := List.eq_nil_of_length_eq_zero (by omega)
  rw [hnil]

theorem sorted_lt_sublist_range_aux :
    ∀ (l : List Nat) (lo hi : Nat), l.Sorted (· < ·) →
      (∀ x ∈ l, lo ≤ x ∧ x < hi) → l.Sublist (List.range' lo (hi - lo)) := by
  intro l
  induction l with
  | nil => intro lo hi _ _; exact List.nil_sublist _
  | cons x xs ih =>
    intro lo hi hs hb
    obtain ⟨hlo, hhi⟩ := hb x (List.mem_cons_self _ _)
    obtain ⟨hxall, hxs⟩ := List.sorted_cons.mp hs
    have hsplit : List.range' lo (x - lo) ++ List.range' (lo + (x - lo)) (hi - x) =
        List.range' lo ((hi - x) + (x - lo)) :=
      List.range'_append_1 lo (x - lo) (hi - x)
    rw [(by omega : hi - lo = (hi - x) + (x - lo)), ← hsplit]
    refine List.sublist_append_of_sublist_right ?_
    rw [(by omega : lo + (x - lo) = x), (by omega : hi - x = (hi - (x + 1)) + 1),
      List.range'_succ]
    refine List.Sublist.cons₂ x ?_
    exact ih (x + 1) hi hxs (fun y hy => ⟨hxall y hy, (hb y (List.mem_cons_of_mem _ hy)).2⟩)

theorem sorted_lt_sublist_range {l : List Nat} {n : Nat}
    (hs : l.Sorted (· < ·)) (hlt : ∀ x ∈ l, x < n) : l.Sublist (List.range n) := by
  rw [List.range_eq_range']
  have := sorted_lt_sublist_range_aux l 0 n hs (fun x hx => ⟨Nat.zero_le _, hlt x hx⟩)
  simpa using this

/-- The cover the solver returns is no larger than any covering subset of
the candidate sets. -/
theorem cover_min_vs_finset {uni : Finset Nat} {sets : List (Finset Nat)}
    {sel : List Nat} (h : cover uni sets = some sel)
    (S : Finset Nat) (hS : ∀ i ∈ S, i < sets.length)
    (hcov : ∀ m ∈ uni, ∃ i ∈ S, m ∈ sets.getD i ∅) : sel.length ≤ S.card := by
  have hspec := cover_spec h
  have hsorted : (S.sort (· ≤ ·)).Sorted (· < ·) := Finset.sort_sorted_lt S
  have hsub : (S.sort (· ≤ ·)).Sublist (List.range sets.length) :=
    sorted_lt_sublist_range hsorted (fun x hx => hS x ((Finset.mem_sort _).mp hx))
  have hcov' : coversUniverse uni sets (S.sort (· ≤ ·)) = true := by
    rw [coversUniverse_iff]
    intro m hm
    obtain ⟨i, hiS, him⟩ := hcov m hm
    exact ⟨i, (Finset.mem_sort _).mpr hiS, him⟩
  calc sel.length ≤ (S.sort (· ≤ ·)).length := hspec.2.2 _ hsub hcov'
  _ = S.card := Finset.length_sort _

/-! ### Extraction of the selected implicants -/

theorem extractAll_length : ∀ (l : List Nat) (primes : List Implicant),
    (extractAll primes l).length = l.length := by
  intro l
  induction l with
  | nil => intro primes; rfl
  | cons i rest ih =>
    intro primes
    rw [extractAll, List.length_cons, ih, List.length_cons]

theorem extractAll_eq_map : ∀ (l : List Nat) (primes : List Implicant),
    l.Pairwise (fun a b => b < a) → (∀ x ∈ l, x < primes.length) →
    extractAll primes l = l.map (fun i => primes.getD i default) := by
  intro l
  induction l with
  | nil => intro primes _ _; rfl
  | cons i rest ih =>
    intro primes hp hb
    rw [extractAll, List.map_cons]
    obtain ⟨hall, hrest⟩ := List.pairwise_cons.mp hp
    have hi : i < primes.length := hb i (List.mem_cons_self _ _)
    have hlen : (primes.eraseIdx i).length = primes.length - 1 :=
      List.length_eraseIdx_of_lt hi
    rw [ih (primes.eraseIdx i) hrest (fun x hx => by
      rw [hlen]
      have h1 := hall x hx
      omega)]
    congr 1
    refine List.map_congr_left (fun j hj => ?_)
    exact getD_eraseIdx_of_lt primes i j default (hall j hj)

theorem getD_map_constituents (primes : List Implicant) (i : Nat) (h : i < primes.length) :
    (primes.map (fun p => p.constituents)).getD i ∅ = (primes.getD i default).constituents := by
  rw [List.getD_eq_getElem _ _ (by simpa using h), List.getD_eq_getElem _ _ h]
  simp

theorem minimize_eq {N : Nat} (t : Table N) {primes : List Implicant} {sel : List Nat}
    (hp : t.prime_implicants = some primes)
    (hc : cover t.minterms (primes.map (fun p => p.constituents)) = some sel) :
    t.minimize = some (extractAll primes sel.reverse) := by
  simp only [Table.minimize, hp, hc]

/-- `minimize` always returns: the merge loop terminates and the cover
program is feasible (the full prime list covers every minterm). -/
theorem minimize_total {N : Nat} (t : Table N) :
    ∃ primes sel, t.prime_implicants = some primes ∧
      cover t.minterms (primes.map (fun p => p.constituents)) = some sel ∧
      t.minimize = some (extractAll primes sel.reverse) := by
  obtain ⟨primes, hp⟩ := prime_implicants_total t
  have hcovfull : coversUniverse t.minterms (primes.map (fun p => p.constituents))
      (List.range (primes.map (fun p => p.constituents)).length) = true := by
    rw [coversUniverse_iff]
    intro m hm
    obtain ⟨p, hpmem, hmp⟩ := prime_implicants_cover t hp m hm
    obtain ⟨i, hi, hgi⟩ := mem_getD default hpmem
    refine ⟨i, List.mem_range.mpr (by simpa using hi), ?_⟩
    rw [getD_map_constituents primes i hi, hgi]
    exact hmp
  obtain ⟨sel, hsel⟩ := cover_some_of (List.Sublist.refl _) hcovfull
  exact ⟨primes, sel, hp, hsel, minimize_eq t hp hsel⟩

/-! ### The shape of the returned selection -/

theorem unionCovered_cons (p : Implicant) (rest : List Implicant) (M : Finset Nat) :
    unionCovered (p :: rest) M = (p.constituents ∩ M) ∪ unionCovered rest M := rfl

theorem unionCovered_subset (sel : List Implicant) (M : Finset Nat) :
    unionCovered sel M ⊆ M := by
  induction sel with
  | nil => simp [unionCovered]
  | cons p rest ih =>
    rw [unionCovered_cons]
    exact Finset.union_subset (Finset.inter_subset_right) ih

theorem mem_unionCovered {sel : List Implicant} {M : Finset Nat} {m : Nat} :
    m ∈ unionCovered sel M ↔ ∃ p ∈ sel, m ∈ p.constituents ∧ m ∈ M := by
  induction sel with
  | nil => simp [unionCovered]
  | cons p rest ih =>
    rw [unionCovered_cons]
    simp only [Finset.mem_union, Finset.mem_inter, ih, List.mem_cons]
    constructor
    · rintro (⟨h1, h2⟩ | ⟨q, hq, h1, h2⟩)
      · exact ⟨p, Or.inl rfl, h1, h2⟩
      · exact ⟨q, Or.inr hq, h1, h2⟩
    · rintro ⟨q, hq | hq, h1, h2⟩
      · rw [← hq]
        exact Or.inl ⟨h1, h2⟩
      · exact Or.inr ⟨q, hq, h1, h2⟩

theorem minimize_result_shape {N : Nat} (t : Table N) {primes : List Implicant}
    {selIdx : List Nat}
    (hc : cover t.minterms (primes.map (fun p => p.constituents)) = some selIdx) :
    extractAll primes selIdx.reverse =
      selIdx.reverse.map (fun i => primes.getD i default) ∧
    (∀ x ∈ selIdx, x < primes.length) := by
  have hsub := (cover_spec hc).1
  have hbounds : ∀ x ∈ selIdx, x < primes.length := by
    intro x hx
    have hmem := (List.Sublist.subset hsub) hx
    rw [List.mem_range] at hmem
    simpa using hmem
  have hsorted : selIdx.Pairwise (fun a b => a < b) :=
    List.Pairwise.sublist hsub (List.pairwise_lt_range _)
  have hrev : selIdx.reverse.Pairwise (fun a b => b < a) := by
    rw [List.pairwise_reverse]
    exact hsorted
  exact ⟨extractAll_eq_map _ _ hrev (fun x hx => hbounds x (List.mem_reverse.mp hx)),
    hbounds⟩

/-! ### Claims -/

/-- C1: for every table, the union of the constituent sets of the implicants
returned by `minimize`, each intersected with the table's minterm set,
equals exactly the table's set of forced-1 indices. -/
theorem claim_C1 (N : Nat) (t : Table N) :
    ∃ sel, t.minimize = some sel ∧ unionCovered sel t.minterms = t.minterms := by
  obtain ⟨primes, selIdx, hp, hc, hmin⟩ := minimize_total t
  refine ⟨_, hmin, ?_⟩
  obtain ⟨hshape, hbounds⟩ := minimize_result_shape t hc
  apply Finset.Subset.antisymm
  · exact unionCovered_subset _ _
  · intro m hm
    have hcov := (cover_spec hc).2.1
    rw [coversUniverse_iff] at hcov
    obtain ⟨i, hisel, him⟩ := hcov m hm
    have hilt : i < primes.length := hbounds i hisel
    rw [getD_map_constituents primes i hilt] at him
    rw [mem_unionCovered]
    refine ⟨primes.getD i default, ?_, him, hm⟩
    rw [hshape]
    exact List.mem_map.mpr ⟨i, List.mem_reverse.mpr hisel, rfl⟩

/-- C2: the selection `minimize` returns is a minimum-cardinality cover: no
subset of the prime implicants of smaller cardinality has constituent sets
whose union contains every minterm of the table. -/
theorem claim_C2 (N : Nat) (t : Table N) :
    ∃ primes sel, t.prime_implicants = some primes ∧ t.minimize = some sel ∧
      ∀ S : Finset Nat, (∀ i ∈ S, i < primes.length) →
        (∀ m ∈ t.minterms, ∃ i ∈ S, m ∈ (primes.getD i default).constituents) →
        sel.length ≤ S.card := by
  obtain ⟨primes, selIdx, hp, hc, hmin⟩ := minimize_total t
  refine ⟨primes, _, hp, hmin, ?_⟩
  intro S hS hcov
  have hlen : (extractAll primes selIdx.reverse).length = selIdx.length := by
    rw [extractAll_length, List.length_reverse]
  rw [hlen]
  refine cover_min_vs_finset hc S (fun i hi => by simpa using hS i hi) ?_
  intro m hm
  obtain ⟨i, hiS, him⟩ := hcov m hm
  refine ⟨i, hiS, ?_⟩
  rw [getD_map_constituents primes i (hS i hiS)]
  exact him

/-- C7: a table with no forced-1 outputs minimizes to the empty selection. -/
theorem claim_C7 (N : Nat) (t : Table N) (h : t.minterms = ∅) :
    t.minimize = some [] := by
  obtain ⟨primes, hp⟩ := prime_implicants_total t
  have hc : cover t.minterms (primes.map (fun p => p.constituents)) = some [] := by
    rw [h]
    exact cover_empty_universe _
  have hmin := minimize_eq t hp hc
  simpa [extractAll] using hmin

/-- C7 witness: the all-Zero table of width 1. -/
theorem claim_C7_witness :
    (Table.mk [Output.Zero, Output.Zero] (by decide) : Table 1).minterms = ∅ ∧
      (Table.mk [Output.Zero, Output.Zero] (by decide) : Table 1).minimize = some [] := by
  refine ⟨by decide, ?_⟩
  exact claim_C7 1 (Table.mk [Output.Zero, Output.Zero] (by decide)) (by decide)

/-- C9: every implicant the program ever constructs has constituents drawn
from the table's minterm set: the leaf constructor only records a minterm
index, merging unions two such sets, and consequently every implicant of
every generation, and every returned prime implicant, has constituents
contained in the minterm set. -/
theorem claim_C9 (N : Nat) (t : Table N) :
    (∀ idx, idx < 2 ^ N →
      (Implicant.from_table_idx N idx
        (decide (t.outputs.getD idx Output.Zero = Output.One))).constituents ⊆ t.minterms) ∧
    (∀ a b c : Implicant, a.constituents ⊆ t.minterms → b.constituents ⊆ t.minterms →
      a.try_merge b = some c → c.constituents ⊆ t.minterms) ∧
    (∀ g, ∀ x ∈ t.generation g, x.constituents ⊆ t.minterms) ∧
    (∀ primes, t.prime_implicants = some primes →
      ∀ p ∈ primes, p.constituents ⊆ t.minterms) := by
  refine ⟨?_, ?_, ?_, ?_⟩
  · intro idx hidx
    rw [Implicant.from_table_idx]
    by_cases hone : t.outputs.getD idx Output.Zero = Output.One
    · rw [decide_eq_true hone]
      intro m hmem
      rw [Finset.mem_singleton.mp hmem]
      rw [Table.minterms]
      exact Finset.mem_filter.mpr ⟨Finset.mem_range.mpr hidx, hone⟩
    · rw [decide_eq_false hone]
      intro m hmem
      exact absurd hmem (Finset.not_mem_empty m)
  · intro a b c ha hb hm
    obtain ⟨_, _, _, _, _, _, hc⟩ := Implicant.try_merge_some hm
    rw [hc]
    exact Finset.union_subset ha hb
  · intro g
    exact FI_subset_minterms (generation_FI t g)
  · intro primes hp
    exact FI_subset_minterms (prime_implicants_FI t hp)

/-- C10: `minimize` never selects an implicant that covers no minterm: every
returned implicant has at least one forced-1 index among its constituents
(a cover of minimum cardinality has no useless member). -/
theorem claim_C10 (N : Nat) (t : Table N) :
    ∃ sel, t.minimize = some sel ∧
      ∀ p ∈ sel, ∃ m, m ∈ p.constituents ∧ m ∈ t.minterms := by
  obtain ⟨primes, selIdx, hp, hc, hmin⟩ := minimize_total t
  refine ⟨_, hmin, ?_⟩
  obtain ⟨hshape, hbounds⟩ := minimize_result_shape t hc
  intro p hpmem
  rw [hshape] at hpmem
  obtain ⟨i, hirev, hpi⟩ := List.mem_map.mp hpmem
  have hisel : i ∈ selIdx := List.mem_reverse.mp hirev
  by_contra hnone
  push_neg at hnone
  have hspec := cover_spec hc
  have hcovered := hspec.2.1
  rw [coversUniverse_iff] at hcovered
  have hcov' : coversUniverse t.minterms (primes.map (fun p => p.constituents))
      (selIdx.erase i) = true := by
    rw [coversUniverse_iff]
    intro m hm
    obtain ⟨j, hjsel, hjm⟩ := hcovered m hm
    have hji : j ≠ i := by
      intro hc2
      subst hc2
      rw [getD_map_constituents primes j (hbounds j hjsel)] at hjm
      rw [← hpi] at hnone
      exact (hnone m hjm) hm
    exact ⟨j, (List.mem_erase_of_ne hji).mpr hjsel, hjm⟩
  have herasesub : (selIdx.erase i).Sublist (List.range
      (primes.map (fun p => p.constituents)).length) :=
    List.Sublist.trans (List.erase_sublist i selIdx) hspec.1
  have hminlen := hspec.2.2 _ herasesub hcov'
  have hlenerase : (selIdx.erase i).length = selIdx.length - 1 :=
    List.length_erase_of_mem hisel
  have hpos : 0 < selIdx.length := List.length_pos.mpr (fun hcon => by
    rw [hcon] at hisel
    exact absurd hisel (List.not_mem_nil i))
  omega

/-- C3: for same-width implicants, `try_merge` succeeds iff the value
vectors differ in exactly one coordinate and there form the complementary
`Zero`/`One` pair; on success the result is `DontCare` at that coordinate,
equals both inputs at every other coordinate, and its constituents are the
union of the inputs' constituents. -/
theorem claim_C3 (a b : Implicant) (hlen : a.values.length = b.values.length) :
    ((a.try_merge b).isSome ↔
      ∃ d, d < a.values.length ∧
        isCompPair (a.values.getD d Output.DontCare) (b.values.getD d Output.DontCare) ∧
        ∀ i, i < a.values.length → i ≠ d →
          a.values.getD i Output.DontCare = b.values.getD i Output.DontCare) ∧
    (∀ c, a.try_merge b = some c →
      ∃ d, d < a.values.length ∧
        isCompPair (a.values.getD d Output.DontCare) (b.values.getD d Output.DontCare) ∧
        (∀ i, i < a.values.length → i ≠ d →
          a.values.getD i Output.DontCare = b.values.getD i Output.DontCare) ∧
        c.values.getD d Output.DontCare = Output.DontCare ∧
        (∀ i, i < a.values.length → i ≠ d →
          c.values.getD i Output.DontCare = a.values.getD i Output.DontCare ∧
          c.values.getD i Output.DontCare = b.values.getD i Output.DontCare) ∧
        c.constituents = a.constituents ∪ b.constituents) := by
  constructor
  · constructor
    · intro hsome
      obtain ⟨c, hc⟩ := Option.isSome_iff_exists.mp hsome
      obtain ⟨d, hd, _, hcomp, hagree, _, _⟩ := Implicant.try_merge_some hc
      exact ⟨d, hd, hcomp, hagree⟩
    · rintro ⟨d, hd, hcomp, hagree⟩
      rw [Implicant.try_merge_eq_some a b d hlen hd hcomp hagree]
      rfl
  · intro c hc
    obtain ⟨d, hd, _, hcomp, hagree, hv, hconst⟩ := Implicant.try_merge_some hc
    refine ⟨d, hd, hcomp, hagree, ?_, ?_, hconst⟩
    · rw [hv]
      exact getD_set_self _ _ _ _ hd
    · intro i hi hne
      have hca : c.values.getD i Output.DontCare = a.values.getD i Output.DontCare := by
        rw [hv]
        exact getD_set_ne _ _ _ _ _ (fun h2 => hne h2.symm)
      exact ⟨hca, by rw [hca]; exact hagree i hi hne⟩

/-- C3 witness: merging the width-1 implicants `0` and `1`. -/
theorem claim_C3_witness :
    ((Implicant.mk [Output.Zero] {0}).try_merge (Implicant.mk [Output.One] {1})).isSome := by
  exact (claim_C3 (Implicant.mk [Output.Zero] {0}) (Implicant.mk [Output.One] {1}) rfl).1.mpr
    ⟨0, by decide, Or.inl ⟨rfl, rfl⟩, fun i h1 h2 => by simp at h1; omega⟩

/-- C4: when two merges within the same generation produce implicants with
equal value vectors, the single implicant kept in the next generation has
constituents equal to the union of the two merges' constituents.  (In the
code a value-equal duplicate is dropped by `HashSet::insert`, keeping the
first-inserted constituents; value-equal merges provably carry identical
constituent sets — both equal the minterms of the shared cube — so the
kept constituents equal the union over all duplicates.) -/
theorem claim_C4 (N : Nat) (t : Table N) (g i j k l : Nat) (m1 m2 : Implicant)
    (hi : i < (t.generation g).length) (hj : j < (t.generation g).length)
    (hk : k < (t.generation g).length) (hl : l < (t.generation g).length)
    (hm1 : mergeAt (t.generation g) i j = some m1)
    (hm2 : mergeAt (t.generation g) k l = some m2)
    (hvals : m1.values = m2.values) :
    ∃ x ∈ t.generation (g + 1), x.values = m1.values ∧
      x.constituents = m1.constituents ∪ m2.constituents := by
  have hfi := generation_FI t g
  have hfim1 : m1.constituents =
      t.minterms.filter (fun mm => cubeMatches m1.values mm = true) := by
    have hic := (hfi _ (getD_mem _ i default hi)).2
    have hjc := (hfi _ (getD_mem _ j default hj)).2
    rw [mergeAt] at hm1
    exact merge_constituents_filter hic hjc hm1
  have hfim2 : m2.constituents =
      t.minterms.filter (fun mm => cubeMatches m2.values mm = true) := by
    have hkc := (hfi _ (getD_mem _ k default hk)).2
    have hlc := (hfi _ (getD_mem _ l default hl)).2
    rw [mergeAt] at hm2
    exact merge_constituents_filter hkc hlc hm2
  have hconst : m2.constituents = m1.constituents := by
    rw [hfim1, hfim2, hvals]
  obtain ⟨x, hx, hxv⟩ := passNext_rep hi hj hm1
  refine ⟨x, hx, hxv, ?_⟩
  have hfx := (FI_passNext hfi) x hx
  rw [hfx.2, hxv, ← hfim1, hconst, Finset.union_self]

/-- C4 witness: in the all-One width-2 table, generation 1 holds the four
one-cube implicants; the pairs (0,3) and (1,2) both merge to the all-`DontCare`
vector, and the kept implicant of generation 2 carries the union. -/
theorem claim_C4_witness :
    ∃ x ∈ (Table.mk [Output.One, Output.One, Output.One, Output.One]
        (by decide) : Table 2).generation 2,
      x.values = (Implicant.mk [Output.DontCare, Output.DontCare]
        ({0, 1, 2, 3} : Finset Nat)).values ∧
      x.constituents =
        (Implicant.mk [Output.DontCare, Output.DontCare] ({0, 1, 2, 3} : Finset Nat)).constituents ∪
        (Implicant.mk [Output.DontCare, Output.DontCare] ({0, 2, 1, 3} : Finset Nat)).constituents := by
  exact claim_C4 2
    (Table.mk [Output.One, Output.One, Output.One, Output.One] (by decide)) 1 0 3 1 2
    (Implicant.mk [Output.DontCare, Output.DontCare] ({0, 1, 2, 3} : Finset Nat))
    (Implicant.mk [Output.DontCare, Output.DontCare] ({0, 2, 1, 3} : Finset Nat))
    (by decide) (by decide) (by decide) (by decide) (by rfl) (by rfl) (by rfl)

/-- C5: the returned prime implicants are exactly the implicants that, in
some generation of the merge loop, merge successfully with no implicant of
that generation (in either argument order): maximality, and its converse. -/
theorem claim_C5 (N : Nat) (t : Table N) :
    ∃ primes, t.prime_implicants = some primes ∧
      ∀ p, p ∈ primes ↔ ∃ g, p ∈ t.generation g ∧
        ∀ q ∈ t.generation g, p.try_merge q = none ∧ q.try_merge p = none := by
  obtain ⟨primes, hp⟩ := prime_implicants_total t
  refine ⟨primes, hp, fun p => ?_⟩
  rw [prime_implicants_mem_iff t hp]
  constructor
  · rintro ⟨g, hg⟩
    obtain ⟨i, hi, hma, hpi⟩ := mem_passPrimes.mp hg
    refine ⟨g, by rw [hpi]; exact getD_mem _ i default hi, ?_⟩
    intro q hq
    obtain ⟨j, hj, hqj⟩ := mem_getD default hq
    have hnone := mergesAny_eq_false_iff.mp hma j hj
    rw [mergeAt] at hnone
    have h1 : p.try_merge q = none := by
      rw [hpi, ← hqj]
      exact hnone
    refine ⟨h1, ?_⟩
    have hsym := Implicant.try_merge_isSome_symm q p
    rw [h1] at hsym
    exact Option.not_isSome_iff_eq_none.mp (by rw [hsym]; simp)
  · rintro ⟨g, hpg, hnomerge⟩
    obtain ⟨i, hi, hgi⟩ := mem_getD default hpg
    refine ⟨g, mem_passPrimes.mpr ⟨i, hi, ?_, hgi.symm⟩⟩
    rw [mergesAny_eq_false_iff]
    intro j hj
    rw [mergeAt, hgi]
    exact (hnomerge _ (getD_mem _ j default hj)).1

/-- C6 (amended): `is_minterm` is a bounds-checked query of the output
array: for an index inside `[0, 2^N)` it returns whether the output is
`One`; for an index outside the range Rust's bounds check fires and the
call panics, modelled as `none` — a deterministic abort, never undefined
behavior, but not an explicit error value returned to the caller. -/
theorem claim_C6 (N : Nat) (t : Table N) (idx : Nat) :
    (idx < 2 ^ N →
      t.is_minterm idx = some (decide (t.outputs.getD idx Output.Zero = Output.One))) ∧
    (2 ^ N ≤ idx → t.is_minterm idx = none) := by
  constructor
  · intro h
    rw [Table.is_minterm]
    have hl : idx < t.outputs.length := by rw [t.hlen]; exact h
    rw [dif_pos hl]
    have hget : t.outputs.get ⟨idx, hl⟩ = t.outputs.getD idx Output.Zero := by
      rw [List.getD_eq_getElem _ _ hl, List.get_eq_getElem]
    rw [hget]
  · intro h
    rw [Table.is_minterm]
    rw [dif_neg (by rw [t.hlen]; omega)]

/-- C6 counterexample: on the width-1 table `[One, Zero]` the out-of-range
query `is_minterm 2` hits the array bounds check and the call aborts
(`none` in the embedding, standing for the Rust index panic): no explicit
error/result value is returned to the caller. -/
theorem claim_C6_counterexample :
    (Table.mk [Output.One, Output.Zero] (by decide) : Table 1).is_minterm 2 = none := by
  decide

/-! ### The all-One table -/

theorem getD_replicate {α : Type} (a : α) (n i : Nat) :
    (List.replicate n a).getD i a = a := by
  induction n generalizing i with
  | zero => rfl
  | succ n ih =>
    cases i with
    | zero => rfl
    | succ i => exact ih i

theorem allOne_getD {N : Nat} (t : Table N) (houts : ∀ x ∈ t.outputs, x = Output.One)
    {idx : Nat} (hidx : idx < 2 ^ N) : t.outputs.getD idx Output.Zero = Output.One :=
  houts _ (getD_mem t.outputs idx Output.Zero (by rw [t.hlen]; exact hidx))

theorem allOne_minterms {N : Nat} (t : Table N)
    (houts : ∀ x ∈ t.outputs, x = Output.One) : t.minterms = Finset.range (2 ^ N) := by
  rw [Table.minterms]
  refine Finset.filter_true_of_mem (fun idx hidx => ?_)
  exact allOne_getD t houts (Finset.mem_range.mp hidx)

theorem allOne_seeds {N : Nat} (t : Table N)
    (houts : ∀ x ∈ t.outputs, x = Output.One) :
    t.seeds = (List.range (2 ^ N)).map
      (fun idx => Implicant.from_table_idx N idx true) := by
  rw [Table.seeds]
  have hfilter : (List.range (2 ^ N)).filter
      (fun idx => decide (t.outputs.getD idx Output.Zero ≠ Output.Zero)) =
      List.range (2 ^ N) := by
    rw [List.filter_eq_self]
    intro idx hidx
    rw [allOne_getD t houts (List.mem_range.mp hidx)]
    decide
  rw [hfilter]
  refine List.map_congr_left (fun idx hidx => ?_)
  rw [allOne_getD t houts (List.mem_range.mp hidx)]
  rfl

/-- The integer index whose bit pattern a don't-care-free value vector
spells (bit `var` of the result is coordinate `var`). -/
def valToIdx : List Output → Nat
  | [] => 0
  | a :: rest => (if a = Output.One then 1 else 0) + 2 * valToIdx rest

theorem valToIdx_lt : ∀ (v : List Output), valToIdx v < 2 ^ v.length := by
  intro v
  induction v with
  | nil => decide
  | cons a rest ih =>
    rw [valToIdx, List.length_cons, Nat.pow_succ]
    by_cases ha : a = Output.One
    · rw [if_pos ha]; omega
    · rw [if_neg ha]; omega

theorem div2_shiftRight (n k : Nat) : (n / 2) >>> k = n >>> (k + 1) := by
  rw [Nat.shiftRight_eq_div_pow, Nat.shiftRight_eq_div_pow,
    Nat.div_div_eq_div_mul, Nat.pow_succ, Nat.mul_comm]

theorem map_bits_valToIdx : ∀ (v : List Output), dcCount v = 0 →
    (List.range v.length).map
      (fun var => if (valToIdx v >>> var) % 2 = 1 then Output.One else Output.Zero) = v := by
  intro v
  induction v with
  | nil => intro _; rfl
  | cons a rest ih =>
    intro hdc
    have hcons : dcCount (a :: rest) = dcCount rest + if a = Output.DontCare then 1 else 0 := by
      simp [dcCount, List.count_cons]
    have hane : a ≠ Output.DontCare := by
      intro hc
      rw [hcons, if_pos hc] at hdc
      omega
    have hrest : dcCount rest = 0 := by
      rw [hcons] at hdc
      omega
    rw [List.length_cons, List.range_succ_eq_map, List.map_cons, List.map_map]
    have hmod : valToIdx (a :: rest) % 2 = if a = Output.One then 1 else 0 := by
      rw [valToIdx]
      by_cases ha : a = Output.One
      · rw [if_pos ha]; omega
      · rw [if_neg ha]; omega
    have hdiv : valToIdx (a :: rest) / 2 = valToIdx rest := by
      rw [valToIdx]
      by_cases ha : a = Output.One
      · rw [if_pos ha]; omega
      · rw [if_neg ha]; omega
    congr 1
    · rw [Nat.shiftRight_zero, hmod]
      cases a with
      | Zero => rfl
      | One => rfl
      | DontCare => exact absurd rfl hane
    · have htail : List.map ((fun var => if (valToIdx (a :: rest) >>> var) % 2 = 1
          then Output.One else Output.Zero) ∘ Nat.succ) (List.range rest.length) =
          List.map (fun var => if (valToIdx rest >>> var) % 2 = 1
            then Output.One else Output.Zero) (List.range rest.length) := by
        refine List.map_congr_left (fun var _ => ?_)
        show (if (valToIdx (a :: rest) >>> (var + 1)) % 2 = 1
          then Output.One else Output.Zero) = _
        rw [← div2_shiftRight, hdiv]
      rw [htail, ih hrest]

theorem generation_hom {N : Nat} (t : Table N) (g : Nat) :
    ∀ x ∈ t.generation g, x.values.length = N ∧ dcCount x.values = g := by
  induction g with
  | zero => exact seeds_hom t
  | succ g ih =>
    intro x hx
    rw [Table.generation] at hx
    obtain ⟨i, j, hi, hj, hm⟩ := passNext_mem hx
    obtain ⟨hplen, hpdc⟩ := ih _ (getD_mem _ i default hi)
    rw [mergeAt] at hm
    obtain ⟨hclen, hcdc, _⟩ := Implicant.try_merge_dc hm
    exact ⟨by rw [hclen, hplen], by rw [hcdc, hpdc]⟩

theorem from_table_idx_values_inj {N a b : Nat} (ha : a < 2 ^ N) (hb : b < 2 ^ N)
    (b1 b2 : Bool)
    (h : (Implicant.from_table_idx N a b1).values = (Implicant.from_table_idx N b b2).values) :
    a = b := by
  have h1 : cubeMatches (Implicant.from_table_idx N b b2).values b = true :=
    (cubeMatches_from_table_idx b2 hb hb).mpr rfl
  rw [← h] at h1
  exact ((cubeMatches_from_table_idx b1 ha hb).mp h1).symm

theorem seeds_nodup {N : Nat} (t : Table N) :
    t.seeds.Pairwise (fun p q => p.values ≠ q.values) := by
  rw [Table.seeds]
  rw [List.pairwise_map]
  refine List.Pairwise.imp_of_mem ?_
    (List.Pairwise.filter _ (List.pairwise_lt_range (2 ^ N)))
  intro a b hamem hbmem hab hvals
  have ha : a < 2 ^ N := List.mem_range.mp (List.mem_of_mem_filter hamem)
  have hb : b < 2 ^ N := List.mem_range.mp (List.mem_of_mem_filter hbmem)
  have := from_table_idx_values_inj ha hb _ _ hvals
  omega

theorem generation_nodup {N : Nat} (t : Table N) (g : Nat) :
    (t.generation g).Pairwise (fun p q => p.values ≠ q.values) := by
  cases g with
  | zero => exact seeds_nodup t
  | succ g =>
    rw [Table.generation]
    exact passNext_nodup _

/-- In the all-One table, every value vector of the right length and
don't-care count is realized in its generation. -/
theorem allOne_complete {N : Nat} (t : Table N)
    (houts : ∀ x ∈ t.outputs, x = Output.One) :
    ∀ (g : Nat) (v : List Output), v.length = N → dcCount v = g →
      ∃ x ∈ t.generation g, x.values = v := by
  intro g
  induction g with
  | zero =>
    intro v hlen hdc
    refine ⟨Implicant.from_table_idx N (valToIdx v) true, ?_, ?_⟩
    · rw [Table.generation, allOne_seeds t houts]
      refine List.mem_map.mpr ⟨valToIdx v, List.mem_range.mpr ?_, rfl⟩
      rw [← hlen]
      exact valToIdx_lt v
    · show (List.range N).map _ = v
      rw [← hlen]
      exact map_bits_valToIdx v hdc
  | succ g ih =>
    intro v hlen hdc
    have hmemdc : Output.DontCare ∈ v := by
      by_contra hc
      rw [dcCount, List.count_eq_zero_of_not_mem hc] at hdc
      omega
    obtain ⟨d, hd, hgd⟩ := mem_getD Output.DontCare hmemdc
    obtain ⟨xa, hxa, hxav⟩ := ih (v.set d Output.Zero)
      (by rw [List.length_set]; exact hlen)
      (by have := @dcCount_set_undc v d Output.Zero hd hgd (by decide); omega)
    obtain ⟨xb, hxb, hxbv⟩ := ih (v.set d Output.One)
      (by rw [List.length_set]; exact hlen)
      (by have := @dcCount_set_undc v d Output.One hd hgd (by decide); omega)
    have hdlt : d < xa.values.length := by
      rw [hxav, List.length_set]
      exact hd
    have hmerge := Implicant.try_merge_eq_some xa xb d
      (by rw [hxav, hxbv, List.length_set, List.length_set])
      hdlt
      (by rw [hxav, hxbv, getD_set_self _ _ _ _ hd, getD_set_self _ _ _ _ hd]
          exact Or.inl ⟨rfl, rfl⟩)
      (by intro i hi hne
          rw [hxav, hxbv, getD_set_ne _ _ _ _ _ (fun hc => hne hc.symm),
            getD_set_ne _ _ _ _ _ (fun hc => hne hc.symm)])
    have hmv : xa.values.set d Output.DontCare = v := by
      rw [hxav, List.set_set, ← hgd]
      exact set_getD_self v d Output.DontCare hd
    obtain ⟨ia, hia, hgia⟩ := mem_getD default hxa
    obtain ⟨ib, hib, hgib⟩ := mem_getD default hxb
    have hmAt : mergeAt (t.generation g) ia ib =
        some ⟨xa.values.set d Output.DontCare, xa.constituents ∪ xb.constituents⟩ := by
      rw [mergeAt, hgia, hgib]
      exact hmerge
    obtain ⟨x, hx, hxv⟩ := passNext_rep hia hib hmAt
    refine ⟨x, by rw [Table.generation]; exact hx, ?_⟩
    rw [hxv]
    exact hmv

/-- An implicant of a generation with a non-don't-care coordinate merges
with the implicant whose value vector flips that coordinate. -/
theorem allOne_merge_flip {N : Nat} (t : Table N)
    (houts : ∀ x ∈ t.outputs, x = Output.One) {g i d : Nat}
    (hi : i < (t.generation g).length)
    (hd : d < ((t.generation g).getD i default).values.length)
    (w : Output) (hw : w ≠ Output.DontCare)
    (hcomp : isCompPair (((t.generation g).getD i default).values.getD d Output.DontCare) w) :
    mergesAny (t.generation g) i = true := by
  obtain ⟨hxlen, hxdc⟩ := generation_hom t g _ (getD_mem _ i default hi)
  have hdne : ((t.generation g).getD i default).values.getD d Output.DontCare ≠
      Output.DontCare := by
    rcases hcomp with ⟨h1, _⟩ | ⟨h1, _⟩ <;> rw [h1] <;> decide
  obtain ⟨y, hy, hyv⟩ := allOne_complete t houts g
    (((t.generation g).getD i default).values.set d w)
    (by rw [List.length_set]; exact hxlen)
    (by rw [dcCount_set_keep hdne hw]; exact hxdc)
  obtain ⟨j, hj, hgj⟩ := mem_getD default hy
  rw [mergesAny_eq_true_iff]
  refine ⟨j, hj, ?_⟩
  rw [mergeAt, hgj]
  rw [Implicant.try_merge_eq_some ((t.generation g).getD i default) y d
    (by rw [hyv, List.length_set]) hd
    (by rw [hyv, getD_set_self _ _ _ _ hd]; exact hcomp)
    (by intro k hk hne
        rw [hyv, getD_set_ne _ _ _ _ _ (fun hc => hne hc.symm)])]
  rfl

/-- Before generation `N` of the all-One table, every implicant merges. -/
theorem allOne_all_merge {N : Nat} (t : Table N)
    (houts : ∀ x ∈ t.outputs, x = Output.One) {g : Nat} (hg : g < N) :
    ∀ i, i < (t.generation g).length → mergesAny (t.generation g) i = true := by
  intro i hi
  obtain ⟨hxlen, hxdc⟩ := generation_hom t g _ (getD_mem _ i default hi)
  have hexists : ∃ d, d < ((t.generation g).getD i default).values.length ∧
      ((t.generation g).getD i default).values.getD d Output.DontCare ≠
        Output.DontCare := by
    by_contra hc
    push_neg at hc
    have hrep : ((t.generation g).getD i default).values =
        List.replicate ((t.generation g).getD i default).values.length Output.DontCare := by
      refine list_eq_of_getD _ _ Output.DontCare (by rw [List.length_replicate])
        (fun k hk => ?_)
      rw [hc k hk, getD_replicate]
    have hcount : dcCount ((t.generation g).getD i default).values =
        ((t.generation g).getD i default).values.length := by
      rw [dcCount, hrep, List.count_replicate_self, List.length_replicate]
    omega
  obtain ⟨d, hd, hdne⟩ := hexists
  cases hv : ((t.generation g).getD i default).values.getD d Output.DontCare with
  | DontCare => exact absurd hv hdne
  | Zero =>
    exact allOne_merge_flip t houts hi hd Output.One (by decide)
      (by rw [hv]; exact Or.inl ⟨rfl, rfl⟩)
  | One =>
    exact allOne_merge_flip t houts hi hd Output.Zero (by decide)
      (by rw [hv]; exact Or.inr ⟨rfl, rfl⟩)

/-- Before generation `N` of the all-One table, no primes are pushed. -/
theorem allOne_passPrimes_nil {N : Nat} (t : Table N)
    (houts : ∀ x ∈ t.outputs, x = Output.One) {g : Nat} (hg : g < N) :
    passPrimes (t.generation g) = [] := by
  rw [passPrimes_eq]
  have hfilter : ((List.range (t.generation g).length).filter
      (fun i => !(mergesAny (t.generation g) i))) = [] := by
    rw [List.filter_eq_nil]
    intro i hi
    rw [allOne_all_merge t houts hg i (List.mem_range.mp hi)]
    decide
  rw [hfilter]
  rfl

theorem passNext_singleton (x : Implicant) : passNext [x] = [] := by
  rw [passNext_eq_nil_iff]
  intro i j hi hj
  rw [List.length_singleton] at hi hj
  have hi0 : i = 0 := by omega
  have hj0 : j = 0 := by omega
  subst hi0
  subst hj0
  rw [mergeAt]
  exact Implicant.try_merge_self_eq_none rfl

theorem passPrimes_singleton (x : Implicant) : passPrimes [x] = [x] := by
  rw [passPrimes_eq]
  have h0 : mergesAny [x] 0 = false := by
    rw [mergesAny_eq_false_iff]
    intro j hj
    rw [List.length_singleton] at hj
    have hj0 : j = 0 := by omega
    subst hj0
    rw [mergeAt]
    exact Implicant.try_merge_self_eq_none rfl
  rw [List.length_singleton]
  rw [show List.range 1 = [0] from rfl, List.filter_cons, h0]
  rfl

/-- Generation `N` of the all-One table is the single all-don't-care
implicant whose constituents are the whole index range. -/
theorem allOne_genN {N : Nat} (t : Table N)
    (houts : ∀ x ∈ t.outputs, x = Output.One) :
    t.generation N =
      [⟨List.replicate N Output.DontCare, Finset.range (2 ^ N)⟩] := by
  obtain ⟨x0, hx0, hx0v⟩ := allOne_complete t houts N (List.replicate N Output.DontCare)
    (List.length_replicate _ _) (by rw [dcCount, List.count_replicate_self])
  have hall : ∀ x ∈ t.generation N, x.values = List.replicate N Output.DontCare := by
    intro x hx
    obtain ⟨hxlen, hxdc⟩ := generation_hom t N x hx
    have hrep := @eq_replicate_of_dcCount x.values (by rw [hxdc, hxlen])
    rw [hxlen] at hrep
    exact hrep
  have hrange : ∀ x ∈ t.generation N, x.constituents = Finset.range (2 ^ N) := by
    intro x hx
    have hfi := generation_FI t N x hx
    rw [hfi.2, allOne_minterms t houts]
    refine Finset.filter_true_of_mem (fun m hm => ?_)
    rw [hall x hx]
    refine cubeMatches_iff.mpr (fun var hvar => ?_)
    rw [getD_replicate]
    exact ⟨fun h => absurd h (by decide), fun h => absurd h (by decide)⟩
  cases hgen : t.generation N with
  | nil =>
    rw [hgen] at hx0
    exact absurd hx0 (List.not_mem_nil x0)
  | cons y ys =>
    have hymem : y ∈ t.generation N := by
      rw [hgen]
      exact List.mem_cons_self _ _
    have hyimp : y = ⟨List.replicate N Output.DontCare, Finset.range (2 ^ N)⟩ := by
      cases y with
      | mk v c =>
        have h1 := hall _ hymem
        have h2 := hrange _ hymem
        rw [Implicant.mk.injEq]
        exact ⟨h1, h2⟩
    cases ys with
    | nil => rw [hyimp]
    | cons z zs =>
      have hzmem : z ∈ t.generation N := by
        rw [hgen]
        exact List.mem_cons_of_mem _ (List.mem_cons_self _ _)
      have hnd := generation_nodup t N
      rw [hgen] at hnd
      have hne := (List.pairwise_cons.mp hnd).1 z (List.mem_cons_self _ _)
      have heq : y.values = z.values := by
        rw [hall _ hymem, hall _ hzmem]
      exact absurd heq hne

/-- Running the merge loop from generation `g` of the all-One table (with
`N - g` generations to go and enough fuel) pushes exactly the all-don't-care
prime. -/
theorem allOne_loop {N : Nat} (t : Table N)
    (houts : ∀ x ∈ t.outputs, x = Output.One) :
    ∀ (k g : Nat) (acc : List Implicant) (fuel : Nat), g + k = N → k + 1 ≤ fuel →
      primeLoop fuel (t.generation g) acc =
        some (acc ++ [⟨List.replicate N Output.DontCare, Finset.range (2 ^ N)⟩]) := by
  intro k
  induction k with
  | zero =>
    intro g acc fuel hgk hfuel
    have hgN : g = N := by omega
    subst hgN
    obtain ⟨f, rfl⟩ : ∃ f, fuel = f + 1 := ⟨fuel - 1, by omega⟩
    rw [primeLoop_succ, allOne_genN t houts, passNext_singleton, passPrimes_singleton]
    rfl
  | succ k ih =>
    intro g acc fuel hgk hfuel
    obtain ⟨f, rfl⟩ : ∃ f, fuel = f + 1 := ⟨fuel - 1, by omega⟩
    rw [primeLoop_succ]
    have hgnext : passNext (t.generation g) = t.generation (g + 1) := rfl
    have hnonempty : t.generation (g + 1) ≠ [] := by
      obtain ⟨x, hx, _⟩ := allOne_complete t houts (g + 1)
        (List.replicate (g + 1) Output.DontCare ++ List.replicate (N - (g + 1)) Output.Zero)
        (by rw [List.length_append, List.length_replicate, List.length_replicate]; omega)
        (by rw [dcCount, List.count_append, List.count_replicate_self, List.count_replicate]
            simp)
      intro hc
      rw [hc] at hx
      exact absurd hx (List.not_mem_nil x)
    have hemp : (passNext (t.generation g)).isEmpty = false := by
      rw [hgnext]
      cases hgen2 : t.generation (g + 1) with
      | nil => exact absurd hgen2 hnonempty
      | cons _ _ => rfl
    rw [hemp, if_neg (by decide)]
    rw [hgnext, allOne_passPrimes_nil t houts (by omega), List.append_nil]
    exact ih (g + 1) acc f (by omega) (by omega)

/-- The all-One table has the single all-don't-care prime implicant. -/
theorem allOne_prime_implicants {N : Nat} (t : Table N)
    (houts : ∀ x ∈ t.outputs, x = Output.One) :
    t.prime_implicants =
      some [⟨List.replicate N Output.DontCare, Finset.range (2 ^ N)⟩] := by
  rw [Table.prime_implicants]
  have hloop := allOne_loop t houts N 0 [] (N + 2) (by omega) (by omega)
  rw [show t.generation 0 = t.seeds from rfl] at hloop
  simpa using hloop

/-- C8: a table whose outputs are all `One` minimizes to exactly one
implicant, every coordinate of whose value vector is `DontCare`. -/
theorem claim_C8 (N : Nat) (t : Table N)
    (houts : ∀ x ∈ t.outputs, x = Output.One) :
    ∃ p, t.minimize = some [p] ∧ p.values.length = N ∧
      ∀ v ∈ p.values, v = Output.DontCare := by
  have hp := allOne_prime_implicants t houts
  have hcovfull : coversUniverse t.minterms
      (([⟨List.replicate N Output.DontCare, Finset.range (2 ^ N)⟩] :
        List Implicant).map (fun p => p.constituents)) [0] = true := by
    rw [coversUniverse_iff]
    intro m hm
    refine ⟨0, List.mem_singleton_self 0, ?_⟩
    rw [allOne_minterms t houts] at hm
    exact hm
  obtain ⟨sel, hsel⟩ := cover_some_of (List.Sublist.refl _) hcovfull
  have hspec := cover_spec hsel
  have hzero : (0 : Nat) ∈ t.minterms := by
    rw [allOne_minterms t houts]
    exact Finset.mem_range.mpr (Nat.pos_pow_of_pos N (by omega))
  have hselne : sel ≠ [] := by
    intro hc
    have hcov2 := hspec.2.1
    rw [coversUniverse_iff] at hcov2
    obtain ⟨i, hi, _⟩ := hcov2 0 hzero
    rw [hc] at hi
    exact absurd hi (List.not_mem_nil i)
  have hsel0 : sel = [0] := by
    have hsub := hspec.1
    have hlen1 : sel.length ≤ 1 := by
      have := List.Sublist.length_le hsub
      simpa using this
    have hsubset := List.Sublist.subset hsub
    cases hselc : sel with
    | nil => exact absurd hselc hselne
    | cons s ss =>
      cases ss with
      | nil =>
        have hs : s ∈ List.range 1 := hsubset (by rw [hselc]; exact List.mem_cons_self _ _)
        rw [List.mem_range] at hs
        have : s = 0 := by omega
        rw [this]
      | cons s' ss' =>
        rw [hselc] at hlen1
        simp at hlen1
  refine ⟨⟨List.replicate N Output.DontCare, Finset.range (2 ^ N)⟩, ?_, ?_, ?_⟩
  · have hmin := minimize_eq t hp hsel
    rw [hsel0] at hmin
    exact hmin
  · exact List.length_replicate _ _
  · intro v hv
    exact List.eq_of_mem_replicate hv

/-- C8 witness: the all-One table of width 1. -/
theorem claim_C8_witness :
    ∃ p, (Table.mk [Output.One, Output.One] (by decide) : Table 1).minimize = some [p] ∧
      p.values.length = 1 ∧ ∀ v ∈ p.values, v = Output.DontCare :=
  claim_C8 1 (Table.mk [Output.One, Output.One] (by decide)) (by decide)

end Bigbrain
